import Mathlib

set_option linter.unusedSectionVars false
set_option linter.unusedVariables false

/-!
# Verification of the Merkle Search Tree core (`src/hash.rs`, `src/tree.rs`)

A shallow embedding of the repository's Merkle Search Tree.  Hashes
(`NodeHash([u8; 32])`) are modelled as lists of bytes (`List Nat`, each entry a
byte value); machine `u8` XOR never overflows, so `Nat.xor` is exact.  The key
type is kept generic over a linear order with a default element, mirroring
`K: Ord + Clone + Default`.  The one fallible path in the source — the
`panic!("Cannot insert into a leaf node.")` branch of `Node::insert`, together
with slice indexing that would panic out of bounds — is modelled by returning
`Option`, with `none` standing for a panic.
-/

namespace Mst

/-- The all-zero 32-byte hash: `NodeHash([0; 32])`, i.e. `Default::default()`. -/
def zeroHash : List Nat := List.replicate 32 0

/-- `fn xor_assign(target: &mut NodeHash, source: &NodeHash)` from `tree.rs`:
byte-wise XOR of the target with the source (`iter_mut().zip(source.iter())`
pairs entries up to the shorter length, exactly as `List.zipWith`). -/
def xor_assign (target source : List Nat) : List Nat :=
  List.zipWith Nat.xor target source

/-- `NodeHash::xor` from `hash.rs`: the same byte-wise XOR loop, written as a
method on the `NodeHash` wrapper there. -/
def NodeHash.xor (self source : List Nat) : List Nat :=
  List.zipWith Nat.xor self source

/-- `enum Node<K>` from `tree.rs`: an `Internal` node carries a cached hash, a
vector of children and a cached `max_key`; a `Leaf` carries a key and the hash
of its value. -/
inductive Node (K : Type) where
  | internal (hash : List Nat) (children : List (Node K)) (max_key : K)
  | leaf (key : K) (hash : List Nat)

variable {K : Type}

/-- `Node::key`: `max_key` of an internal node, `key` of a leaf. -/
def Node.key : Node K → K
  | .internal _ _ mk => mk
  | .leaf k _ => k

/-- `Node::hash`: the cached hash of an internal node, the value hash of a leaf. -/
def Node.hash : Node K → List Nat
  | .internal h _ _ => h
  | .leaf _ h => h

/-- `Node::is_internal`. -/
def Node.isInternal : Node K → Bool
  | .internal _ _ _ => true
  | .leaf _ _ => false

/-- The XOR fold `for child in children { xor_assign(hash, child.hash()) }`
starting from the zero hash, as performed by `Node::recalculate`. -/
def hashFoldChildren (children : List (Node K)) : List Nat :=
  children.foldl (fun h c => xor_assign h c.hash) zeroHash

/-- `Node::recalculate`: reset the hash to the default (zero) value; if the
children list is nonempty, set `max_key` to the last child's key and XOR every
child's hash into the hash.  A leaf is left unchanged. -/
def Node.recalculate : Node K → Node K
  | .internal _ children mk =>
    match children.getLast? with
    | none => .internal zeroHash children mk
    | some last => .internal (hashFoldChildren children) children last.key
  | n => n

variable [LinearOrder K] [Inhabited K]

/-- Models `<[T]>::binary_search` from the Rust standard library by its
documented contract on a sorted slice: with `i` the number of leading elements
strictly below the target (the `Ord` instance of `Node` compares keys only),
return `Ok(i)` when element `i` exists and compares equal to the target, and
`Err(i)` (the insertion point) otherwise. -/
def binarySearch (children : List (Node K)) (target : Node K) : Except Nat Nat :=
  let i := (children.takeWhile (fun c => decide (c.key < target.key))).length
  match children.get? i with
  | some c => if c.key = target.key then .ok i else .error i
  | none => .error i

/-- Models `<[T]>::partition_point` from the Rust standard library by its
documented contract on a partitioned slice: the index of the first element not
satisfying the predicate, i.e. the length of the satisfying prefix. -/
def partitionPoint (p : Node K → Bool) (children : List (Node K)) : Nat :=
  (children.takeWhile p).length

/-- Models `Vec::insert(index, element)`.  Every call site provably uses an
index `≤` the length, where this agrees with the source (out of range, `Vec`
would panic). -/
def listInsertAt {α : Type} : Nat → α → List α → List α
  | 0, a, l => a :: l
  | _ + 1, a, [] => [a]
  | n + 1, a, x :: xs => x :: listInsertAt n a xs

/-- The tail of `Node::insert` (`tree.rs` lines 190–211): given the updated
cached hash and children, split when `children.len() > max_children` — the tail
half from the midpoint `children.len() / 2` moves into a fresh sibling built
with a default hash and key and then `recalculate`d, the sibling's hash is
XORed into the kept hash — and in both branches refresh `max_key` from the last
remaining child. -/
def splitCheck (selfHash : List Nat) (children : List (Node K)) (maxKey : K)
    (maxChildren : Nat) : Node K × Option (Node K) :=
  if children.length > maxChildren then
    let mid := children.length / 2
    let kept := children.take mid
    let sibChildren := children.drop mid
    let newSibling := (Node.internal zeroHash sibChildren default).recalculate
    let h2 := xor_assign selfHash newSibling.hash
    let mk2 := match kept.getLast? with
      | some last => last.key
      | none => maxKey
    (Node.internal h2 kept mk2, some newSibling)
  else
    let mk2 := match children.getLast? with
      | some last => last.key
      | none => maxKey
    (Node.internal selfHash children mk2, none)

mutual

/-- `Node::insert(new_node, max_children)` from `tree.rs`.  Returns `none` for
the `panic!("Cannot insert into a leaf node.")` branch (and for out-of-bounds
indexing, which would also panic); otherwise `some (self', new_sibling?)` where
`self'` is the mutated node and `new_sibling?` the optional split product. -/
def Node.insert (n : Node K) (newNode : Node K) (maxChildren : Nat) :
    Option (Node K × Option (Node K)) :=
  match n with
  | .leaf _ _ => none
  | .internal selfHash children maxKey =>
    let areChildrenLeaves :=
      match children with
      | [] => true
      | c :: _ => !c.isInternal
    if areChildrenLeaves then
      match binarySearch children newNode with
      | .ok index =>
        match children.get? index with
        | none => none
        | some old =>
          let h1 := xor_assign selfHash old.hash
          let children1 := children.set index newNode
          match children1.get? index with
          | none => none
          | some c =>
            some (splitCheck (xor_assign h1 c.hash) children1 maxKey maxChildren)
      | .error index =>
        let children1 := listInsertAt index newNode children
        match children1.get? index with
        | none => none
        | some c =>
          some (splitCheck (xor_assign selfHash c.hash) children1 maxKey maxChildren)
    else
      let ci0 := partitionPoint (fun c => decide (c.key < newNode.key)) children
      let ci := if ci0 = children.length then children.length - 1 else ci0
      match updateChild children ci newNode maxChildren with
      | none => none
      | some (oldChildHash, newChildHash, newSiblingFromChild, children1) =>
        let h1 := xor_assign selfHash oldChildHash
        let h2 := xor_assign h1 newChildHash
        match newSiblingFromChild with
        | none => some (splitCheck h2 children1 maxKey maxChildren)
        | some newSibling =>
          let children2 := listInsertAt (ci + 1) newSibling children1
          match children2.get? (ci + 1) with
          | none => none
          | some c =>
            some (splitCheck (xor_assign h2 c.hash) children2 maxKey maxChildren)

/-- `children[child_index].insert(new_node, max_children)` together with the
surrounding reads: walk to index `i`, record the old child hash, recurse, record
the new child hash, and return both hashes, the optional sibling and the updated
children list.  `none` when the index is out of bounds (a slice-indexing panic)
or the recursive call panics. -/
def updateChild (cs : List (Node K)) (i : Nat) (newNode : Node K)
    (maxChildren : Nat) :
    Option (List Nat × List Nat × Option (Node K) × List (Node K)) :=
  match cs, i with
  | [], _ => none
  | c :: rest, 0 =>
    match c.insert newNode maxChildren with
    | none => none
    | some (c2, sib) => some (c.hash, c2.hash, sib, c2 :: rest)
  | c :: rest, j + 1 =>
    match updateChild rest j newNode maxChildren with
    | none => none
    | some (oldH, newH, sib, rest2) => some (oldH, newH, sib, c :: rest2)

end

/-- `pub struct MerkleSearchTree<K>` from `tree.rs`. -/
structure MerkleSearchTree (K : Type) where
  root : Node K
  max_children : Nat

/-- `MerkleSearchTree::new(max_children)`: the root starts as
`Node::default()` — an internal node with zero hash, no children and the
default key.  No validation of `max_children` is performed. -/
def MerkleSearchTree.new (maxChildren : Nat) : MerkleSearchTree K :=
  { root := Node.internal zeroHash [] default, max_children := maxChildren }

/-- `MerkleSearchTree::insert(key, value)`.  The SHA-256 value hasher (the
`sha2` crate) is an external collaborator, passed in as `hashValue`.  A leaf is
built from the key and the value hash and handed to `Node::insert` on the root;
if that returns a new sibling, a fresh root is built over the old root and the
sibling and `recalculate`d.  `none` propagates a panic from `Node::insert`. -/
def MerkleSearchTree.insert (hashValue : String → List Nat)
    (t : MerkleSearchTree K) (key : K) (value : String) :
    Option (MerkleSearchTree K) :=
  let hash := hashValue value
  let leaf := Node.leaf key hash
  match t.root.insert leaf t.max_children with
  | none => none
  | some (root2, none) => some { t with root := root2 }
  | some (root2, some newSibling) =>
    let newRoot := (Node.internal hash [root2, newSibling] default).recalculate
    some { t with root := newRoot }

/-- `MerkleSearchTree::hash()`: the root's cached hash. -/
def MerkleSearchTree.hash (t : MerkleSearchTree K) : List Nat :=
  t.root.hash

/-- Run a sequence of `MerkleSearchTree::insert` calls, propagating a panic. -/
def insertSeq (hashValue : String → List Nat) (t : MerkleSearchTree K) :
    List (K × String) → Option (MerkleSearchTree K)
  | [] => some t
  | (k, v) :: rest =>
    match t.insert hashValue k v with
    | none => none
    | some t2 => insertSeq hashValue t2 rest

/-! ## XOR algebra on byte lists -/

theorem length_xor_assign (a b : List Nat) :
    (xor_assign a b).length = min a.length b.length := by
  simp [xor_assign]

theorem xor_assign_comm : ∀ a b : List Nat, xor_assign a b = xor_assign b a
  | [], [] => rfl
  | [], _ :: _ => rfl
  | _ :: _, [] => rfl
  | a :: as, b :: bs => by
    simp only [xor_assign, List.zipWith]
    exact congrArg₂ _ (Nat.xor_comm a b) (xor_assign_comm as bs)

theorem xor_assign_assoc : ∀ a b c : List Nat,
    xor_assign (xor_assign a b) c = xor_assign a (xor_assign b c)
  | [], _, _ => rfl
  | _ :: _, [], _ => rfl
  | _ :: _, _ :: _, [] => rfl
  | a :: as, b :: bs, c :: cs => by
    simp only [xor_assign, List.zipWith]
    exact congrArg₂ _ (Nat.xor_assoc a b c) (xor_assign_assoc as bs cs)

theorem xor_assign_self : ∀ a : List Nat,
    xor_assign a a = List.replicate a.length 0
  | [] => rfl
  | a :: as => by
    simp only [xor_assign, List.zipWith, List.length_cons, List.replicate]
    exact congrArg₂ _ (Nat.xor_self a) (xor_assign_self as)

theorem xor_assign_replicate_zero :
    ∀ (n : Nat) (a : List Nat), xor_assign (List.replicate n 0) a = a.take n
  | 0, _ => by simp [xor_assign]
  | _ + 1, [] => rfl
  | n + 1, a :: as => by
    simp only [List.replicate, xor_assign, List.zipWith, List.take]
    exact congrArg₂ _ (Nat.zero_xor a) (xor_assign_replicate_zero n as)

theorem zeroHash_length : zeroHash.length = 32 := by simp [zeroHash]

theorem zeroHash_xor (a : List Nat) (h : a.length = 32) :
    xor_assign zeroHash a = a := by
  rw [zeroHash, xor_assign_replicate_zero, ← h, List.take_length]

theorem xor_zeroHash (a : List Nat) (h : a.length = 32) :
    xor_assign a zeroHash = a := by
  rw [xor_assign_comm, zeroHash_xor a h]

theorem xor_assign_length32 {a b : List Nat} (ha : a.length = 32)
    (hb : b.length = 32) : (xor_assign a b).length = 32 := by
  rw [length_xor_assign, ha, hb]; rfl

theorem xor_assign_self32 {a : List Nat} (ha : a.length = 32) :
    xor_assign a a = zeroHash := by
  rw [xor_assign_self, ha]; rfl

theorem xor_assign_cancel_left {a b : List Nat} (ha : a.length = 32)
    (hb : b.length = 32) : xor_assign a (xor_assign a b) = b := by
  rw [← xor_assign_assoc, xor_assign_self32 ha, zeroHash_xor b hb]

theorem xor_shuffle1 {a b f : List Nat} (ha : a.length = 32)
    (hf : f.length = 32) :
    xor_assign (xor_assign (xor_assign a f) a) b = xor_assign b f := by
  rw [xor_assign_comm (xor_assign a f) a, xor_assign_cancel_left ha hf,
      xor_assign_comm]

theorem xor_assign_left_cancel {a b c : List Nat} (ha : a.length = 32)
    (hb : b.length = 32) (hc : c.length = 32)
    (h : xor_assign a b = xor_assign a c) : b = c := by
  have := congrArg (xor_assign a) h
  rwa [xor_assign_cancel_left ha hb, xor_assign_cancel_left ha hc] at this

/-- All hashes in the list are 32 bytes long. -/
def L32 (hs : List (List Nat)) : Prop := ∀ x ∈ hs, x.length = 32

@[simp] theorem L32_nil : L32 [] := by intro x hx; cases hx

@[simp] theorem L32_cons {x : List Nat} {hs : List (List Nat)} :
    L32 (x :: hs) ↔ x.length = 32 ∧ L32 hs := by
  constructor
  · intro h; exact ⟨h x (List.mem_cons_self x hs), fun y hy => h y (List.mem_cons_of_mem x hy)⟩
  · rintro ⟨hx, h⟩ y hy
    rcases List.mem_cons.mp hy with rfl | hy
    · exact hx
    · exact h y hy

@[simp] theorem L32_append {A B : List (List Nat)} :
    L32 (A ++ B) ↔ L32 A ∧ L32 B := by
  constructor
  · intro h
    exact ⟨fun x hx => h x (List.mem_append_left B hx),
           fun x hx => h x (List.mem_append_right A hx)⟩
  · rintro ⟨hA, hB⟩ x hx
    rcases List.mem_append.mp hx with hx | hx
    · exact hA x hx
    · exact hB x hx

/-- The XOR-fold of a list of hashes, starting from the zero hash. -/
def xorFoldHashes (hs : List (List Nat)) : List Nat :=
  hs.foldl xor_assign zeroHash

theorem foldl_xor_shift : ∀ (hs : List (List Nat)) (s : List Nat), L32 hs →
    s.length = 32 → hs.foldl xor_assign s = xor_assign s (xorFoldHashes hs)
  | [], s, _, hl => by simp [xorFoldHashes, xor_zeroHash s hl]
  | x :: hs, s, h32, hl => by
    obtain ⟨hx, hhs⟩ := L32_cons.mp h32
    simp only [xorFoldHashes, List.foldl_cons]
    rw [foldl_xor_shift hs (xor_assign s x) hhs (xor_assign_length32 hl hx),
        foldl_xor_shift hs (xor_assign zeroHash x) hhs
          (xor_assign_length32 zeroHash_length hx),
        zeroHash_xor x hx, xor_assign_assoc]

theorem xorFoldHashes_nil : xorFoldHashes [] = zeroHash := rfl

theorem xorFoldHashes_length : ∀ hs : List (List Nat), L32 hs →
    (xorFoldHashes hs).length = 32
  | [], _ => zeroHash_length
  | x :: hs, h32 => by
    obtain ⟨hx, hhs⟩ := L32_cons.mp h32
    simp only [xorFoldHashes, List.foldl_cons]
    rw [foldl_xor_shift hs (xor_assign zeroHash x) hhs
        (xor_assign_length32 zeroHash_length hx)]
    exact xor_assign_length32 (xor_assign_length32 zeroHash_length hx)
      (xorFoldHashes_length hs hhs)

theorem xorFoldHashes_cons (x : List Nat) (hs : List (List Nat))
    (hx : x.length = 32) (h32 : L32 hs) :
    xorFoldHashes (x :: hs) = xor_assign x (xorFoldHashes hs) := by
  simp only [xorFoldHashes, List.foldl_cons]
  rw [foldl_xor_shift hs (xor_assign zeroHash x) h32
      (xor_assign_length32 zeroHash_length hx), zeroHash_xor x hx]
  rfl

theorem xorFoldHashes_append (A B : List (List Nat)) (hA : L32 A) (hB : L32 B) :
    xorFoldHashes (A ++ B) = xor_assign (xorFoldHashes A) (xorFoldHashes B) := by
  simp only [xorFoldHashes, List.foldl_append]
  exact foldl_xor_shift B _ hB (xorFoldHashes_length A hA)

theorem xorFoldHashes_extract (A : List (List Nat)) (x : List Nat)
    (B : List (List Nat)) (hA : L32 A) (hx : x.length = 32) (hB : L32 B) :
    xorFoldHashes (A ++ x :: B) = xor_assign x (xorFoldHashes (A ++ B)) := by
  rw [xorFoldHashes_append A (x :: B) hA (L32_cons.mpr ⟨hx, hB⟩),
      xorFoldHashes_cons x B hx hB, xorFoldHashes_append A B hA hB,
      ← xor_assign_assoc, xor_assign_comm (xorFoldHashes A) x, xor_assign_assoc]

omit [LinearOrder K] [Inhabited K] in
theorem hashFoldChildren_eq (cs : List (Node K)) :
    hashFoldChildren cs = xorFoldHashes (cs.map Node.hash) := by
  unfold hashFoldChildren xorFoldHashes
  rw [List.foldl_map]

/-! ## Leaf entries, node size, and structural invariants -/

mutual

/-- The in-order list of `(key, value-hash)` pairs over every Leaf in the
subtree of a node. -/
def Node.entries : Node K → List (K × List Nat)
  | .leaf k h => [(k, h)]
  | .internal _ cs _ => entriesList cs

def entriesList : List (Node K) → List (K × List Nat)
  | [] => []
  | c :: cs => c.entries ++ entriesList cs

end

/-- The in-order list of Leaf keys of the subtree of a node. -/
def Node.keys (n : Node K) : List K := n.entries.map Prod.fst

mutual

/-- Number of nodes in a subtree (an induction measure). -/
def Node.size : Node K → Nat
  | .leaf _ _ => 1
  | .internal _ cs _ => 1 + sizeList cs

def sizeList : List (Node K) → Nat
  | [] => 0
  | c :: cs => Node.size c + sizeList cs

end

def allInternalB (cs : List (Node K)) : Bool := cs.all fun c => c.isInternal

def allLeavesB (cs : List (Node K)) : Bool := cs.all fun c => !c.isInternal

/-- Spec invariant 2: all direct children of an Internal node are the same
variant. -/
def homogeneousB (cs : List (Node K)) : Bool := allInternalB cs || allLeavesB cs

/-- Spec invariant 6: the cached `max_key` equals the key of the last child. -/
def lastKeyOkB (cs : List (Node K)) (mk : K) : Bool :=
  match cs.getLast? with
  | some c => decide (mk = c.key)
  | none => false

mutual

/-- Well-formedness of a (nonempty-subtree) node, bundling the spec's
invariants: an Internal node has a nonempty children list of length at most
`m`, homogeneous children, strictly ascending leaf keys across its subtree,
`max_key` equal to its last child's key, and its cached hash equal to the XOR
fold of its children's hashes; every hash is 32 bytes. -/
def Node.wfB (m : Nat) : Node K → Bool
  | .leaf _ h => h.length == 32
  | .internal h cs mk =>
    !cs.isEmpty && decide (cs.length ≤ m) && homogeneousB cs &&
    decide (List.Pairwise (· < ·) ((entriesList cs).map Prod.fst)) &&
    lastKeyOkB cs mk && (h == hashFoldChildren cs) && wfListB m cs

def wfListB (m : Nat) : List (Node K) → Bool
  | [] => true
  | c :: cs => Node.wfB m c && wfListB m cs

end

/-- Well-formedness of a whole tree: the root is Internal, and is either still
the freshly constructed empty root (zero hash, no children) or well-formed with
respect to the tree's fan-out bound. -/
def treeWfB (t : MerkleSearchTree K) : Bool :=
  match t.root with
  | .internal h [] _ => h == zeroHash
  | .internal _ _ _ => Node.wfB t.max_children t.root
  | .leaf _ _ => false

/-- Insert-or-replace of a `(key, hash)` pair into a (sorted) entry list,
keeping keys strictly ascending: the reference "upsert, last value wins"
key-to-value-hash mapping. -/
def upsertEntries (k : K) (h : List Nat) :
    List (K × List Nat) → List (K × List Nat)
  | [] => [(k, h)]
  | e :: rest =>
    if k < e.1 then (k, h) :: e :: rest
    else if k = e.1 then (k, h) :: rest
    else e :: upsertEntries k h rest

/-- The key-to-value-hash mapping produced by a sequence of inserts: the value
hash of the last insert wins per key, keys sorted ascending. -/
def finalEntries (hashValue : String → List Nat) (ops : List (K × String)) :
    List (K × List Nat) :=
  ops.foldl (fun acc e => upsertEntries e.1 (hashValue e.2) acc) []

/-! ### Basic lemmas about the structural functions -/

theorem entriesList_append (A B : List (Node K)) :
    entriesList (A ++ B) = entriesList A ++ entriesList B := by
  induction A with
  | nil => rfl
  | cons c cs ih => simp [entriesList, ih]

theorem sizeList_append (A B : List (Node K)) :
    sizeList (A ++ B) = sizeList A + sizeList B := by
  induction A with
  | nil => simp [sizeList]
  | cons c cs ih => simp [sizeList, ih]; omega

theorem size_pos (n : Node K) : 1 ≤ n.size := by
  cases n <;> simp [Node.size]

theorem size_le_of_mem {c : Node K} {cs : List (Node K)} (h : c ∈ cs) :
    c.size ≤ sizeList cs := by
  induction cs with
  | nil => cases h
  | cons d ds ih =>
    rcases List.mem_cons.mp h with rfl | h
    · simp [sizeList]
    · have := ih h; simp [sizeList]; omega

theorem size_lt_internal {c : Node K} {cs : List (Node K)} (h : c ∈ cs)
    (hh : List Nat) (mk : K) :
    c.size < (Node.internal hh cs mk).size := by
  have := size_le_of_mem h
  simp [Node.size]; omega

theorem wfListB_iff {m : Nat} {cs : List (Node K)} :
    wfListB m cs = true ↔ ∀ c ∈ cs, Node.wfB m c = true := by
  induction cs with
  | nil => simp [wfListB]
  | cons c cs ih =>
    simp [wfListB, Bool.and_eq_true, ih, List.forall_mem_cons]

theorem mem_le_getLast {l : List K} {y : K} (hs : List.Pairwise (· < ·) l)
    (hl : l.getLast? = some y) : ∀ x ∈ l, x ≤ y := by
  have hne : l ≠ [] := by
    intro h; rw [h] at hl; exact Option.noConfusion hl
  have hdec := List.dropLast_append_getLast hne
  rw [List.getLast?_eq_getLast l hne] at hl
  have hy : l.getLast hne = y := Option.some.inj hl
  intro x hx
  rw [← hdec] at hs hx
  rcases List.mem_append.mp hx with hx | hx
  · exact le_of_lt ((List.pairwise_append.mp hs).2.2 x hx y (List.mem_singleton.mpr hy.symm))
  · exact le_of_eq ((List.mem_singleton.mp hx).trans hy)

theorem wfB_leaf_iff {m : Nat} {k : K} {h : List Nat} :
    Node.wfB m (Node.leaf k h) = true ↔ h.length = 32 := by
  simp [Node.wfB]

theorem wfB_internal_iff {m : Nat} {h : List Nat} {cs : List (Node K)} {mk : K} :
    Node.wfB m (Node.internal h cs mk) = true ↔
      cs ≠ [] ∧ cs.length ≤ m ∧ homogeneousB cs = true ∧
      List.Pairwise (· < ·) ((entriesList cs).map Prod.fst) ∧
      lastKeyOkB cs mk = true ∧ h = hashFoldChildren cs ∧
      wfListB m cs = true := by
  simp [Node.wfB, List.isEmpty_iff, and_assoc]

theorem foldHashes_join (cs : List (Node K))
    (hf : ∀ c ∈ cs, c.hash.length = 32 ∧ L32 (c.entries.map Prod.snd) ∧
      c.hash = xorFoldHashes (c.entries.map Prod.snd)) :
    L32 ((entriesList cs).map Prod.snd) ∧
    xorFoldHashes (cs.map Node.hash) =
      xorFoldHashes ((entriesList cs).map Prod.snd) := by
  induction cs with
  | nil => exact ⟨L32_nil, rfl⟩
  | cons c cs ih =>
    obtain ⟨hc1, hc2, hc3⟩ := hf c (List.mem_cons_self c cs)
    obtain ⟨ih1, ih2⟩ := ih (fun d hd => hf d (List.mem_cons_of_mem c hd))
    have hmap : (entriesList (c :: cs)).map Prod.snd =
        c.entries.map Prod.snd ++ (entriesList cs).map Prod.snd := by
      simp [entriesList]
    have hLcs : L32 (cs.map Node.hash) := by
      intro x hx
      obtain ⟨d, hd, rfl⟩ := List.mem_map.mp hx
      exact (hf d (List.mem_cons_of_mem c hd)).1
    constructor
    · rw [hmap]; exact L32_append.mpr ⟨hc2, ih1⟩
    · rw [List.map_cons, xorFoldHashes_cons _ _ hc1 hLcs, hmap,
          xorFoldHashes_append _ _ hc2 ih1, hc3, ih2]

theorem wfB_facts {m : Nat} : ∀ (N : Nat) (n : Node K), n.size ≤ N →
    Node.wfB m n = true →
    n.hash.length = 32 ∧ L32 (n.entries.map Prod.snd) ∧ n.entries ≠ [] ∧
    n.hash = xorFoldHashes (n.entries.map Prod.snd) ∧
    (n.entries.map Prod.fst).getLast? = some n.key := by
  intro N
  induction N with
  | zero =>
    intro n hn _
    have := size_pos n
    omega
  | succ N ih =>
    intro n hn hwf
    match n with
    | .leaf k h =>
      have hl := wfB_leaf_iff.mp hwf
      refine ⟨hl, ?_, ?_, ?_, ?_⟩
      · simpa [Node.entries, L32] using hl
      · simp [Node.entries]
      · simp [Node.entries, Node.hash,
          xorFoldHashes_cons h [] hl L32_nil, xorFoldHashes_nil,
          xor_zeroHash h hl]
      · simp [Node.entries, Node.key]
    | .internal h cs mk =>
      obtain ⟨hne, _, _, _, hlast, hhash, hwfl⟩ := wfB_internal_iff.mp hwf
      have hchild : ∀ c ∈ cs, c.hash.length = 32 ∧
          L32 (c.entries.map Prod.snd) ∧ c.entries ≠ [] ∧
          c.hash = xorFoldHashes (c.entries.map Prod.snd) ∧
          (c.entries.map Prod.fst).getLast? = some c.key := by
        intro c hc
        apply ih c ?_ (wfListB_iff.mp hwfl c hc)
        have h1 := size_le_of_mem hc
        simp [Node.size] at hn
        omega
      have hjoin := foldHashes_join cs
        (fun c hc => ⟨(hchild c hc).1, (hchild c hc).2.1, (hchild c hc).2.2.2.1⟩)
      have hL : L32 (cs.map Node.hash) := by
        intro x hx
        obtain ⟨d, hd, rfl⟩ := List.mem_map.mp hx
        exact (hchild d hd).1
      have hEq : (Node.internal h cs mk).hash =
          xorFoldHashes ((Node.internal h cs mk).entries.map Prod.snd) := by
        show h = _
        rw [hhash, hashFoldChildren_eq]
        simpa [Node.entries] using hjoin.2
      refine ⟨?_, ?_, ?_, hEq, ?_⟩
      · show h.length = 32
        rw [hhash, hashFoldChildren_eq]
        exact xorFoldHashes_length _ hL
      · simpa [Node.entries] using hjoin.1
      · show entriesList cs ≠ []
        cases cs with
        | nil => exact absurd rfl hne
        | cons c rest =>
          have hce := (hchild c (List.mem_cons_self c rest)).2.2.1
          show c.entries ++ entriesList rest ≠ []
          exact List.append_ne_nil_of_left_ne_nil hce _
      · show ((entriesList cs).map Prod.fst).getLast? = some mk
        have hlastc : cs.getLast? = some (cs.getLast hne) :=
          List.getLast?_eq_getLast cs hne
        have hmk : mk = (cs.getLast hne).key := by
          unfold lastKeyOkB at hlast
          rw [hlastc] at hlast
          exact of_decide_eq_true hlast
        have hdec := List.dropLast_append_getLast hne
        have hlmem : cs.getLast hne ∈ cs := List.getLast_mem hne
        have hlf := (hchild _ hlmem).2.2.2.2
        conv_lhs => rw [← hdec]
        rw [entriesList_append, List.map_append, List.getLast?_append]
        have : entriesList [cs.getLast hne] = (cs.getLast hne).entries := by
          simp [entriesList]
        rw [this, hlf, hmk]
        rfl

theorem wfB_hash_length {m : Nat} {n : Node K} (hw : Node.wfB m n = true) :
    n.hash.length = 32 :=
  (wfB_facts n.size n le_rfl hw).1

theorem wfB_entries_L32 {m : Nat} {n : Node K} (hw : Node.wfB m n = true) :
    L32 (n.entries.map Prod.snd) :=
  (wfB_facts n.size n le_rfl hw).2.1

theorem wfB_entries_ne_nil {m : Nat} {n : Node K} (hw : Node.wfB m n = true) :
    n.entries ≠ [] :=
  (wfB_facts n.size n le_rfl hw).2.2.1

theorem wfB_subtree_hash {m : Nat} {n : Node K} (hw : Node.wfB m n = true) :
    n.hash = xorFoldHashes (n.entries.map Prod.snd) :=
  (wfB_facts n.size n le_rfl hw).2.2.2.1

theorem wfB_keys_getLast {m : Nat} {n : Node K} (hw : Node.wfB m n = true) :
    (n.entries.map Prod.fst).getLast? = some n.key :=
  (wfB_facts n.size n le_rfl hw).2.2.2.2

theorem wfB_entries_sorted {m : Nat} {n : Node K} (hw : Node.wfB m n = true) :
    List.Pairwise (· < ·) (n.entries.map Prod.fst) := by
  match n with
  | .leaf k h => simp [Node.entries]
  | .internal h cs mk =>
    have := (wfB_internal_iff.mp hw).2.2.2.1
    simpa [Node.entries] using this

theorem wfB_keys_le {m : Nat} {n : Node K} (hw : Node.wfB m n = true) :
    ∀ x ∈ n.entries.map Prod.fst, x ≤ n.key :=
  mem_le_getLast (wfB_entries_sorted hw) (wfB_keys_getLast hw)

/-! ### Lemmas about `upsertEntries` -/

theorem upsertEntries_ne_nil (k : K) (h : List Nat)
    (es : List (K × List Nat)) : upsertEntries k h es ≠ [] := by
  cases es with
  | nil => simp [upsertEntries]
  | cons e rest =>
    simp only [upsertEntries]
    split
    · simp
    · split <;> simp

theorem upsertEntries_L32 (k : K) (h : List Nat) (es : List (K × List Nat))
    (hh : h.length = 32) (hes : L32 (es.map Prod.snd)) :
    L32 ((upsertEntries k h es).map Prod.snd) := by
  induction es with
  | nil => simpa [upsertEntries] using hh
  | cons e rest ih =>
    simp only [List.map_cons, L32_cons] at hes
    simp only [upsertEntries]
    split
    · simpa [hh] using hes
    · split
      · simpa [hh] using hes.2
      · simp only [List.map_cons, L32_cons]
        exact ⟨hes.1, ih hes.2⟩

theorem upsertEntries_keys_mem (k : K) (h : List Nat)
    (es : List (K × List Nat)) (x : K)
    (hx : x ∈ (upsertEntries k h es).map Prod.fst) :
    x = k ∨ x ∈ es.map Prod.fst := by
  induction es with
  | nil => simpa [upsertEntries] using hx
  | cons e rest ih =>
    simp only [upsertEntries] at hx
    split at hx
    · rw [List.map_cons] at hx
      rcases List.mem_cons.mp hx with h1 | h1
      · exact Or.inl h1
      · exact Or.inr h1
    · split at hx
      · rw [List.map_cons] at hx
        rcases List.mem_cons.mp hx with h1 | h1
        · exact Or.inl h1
        · exact Or.inr (by rw [List.map_cons]; exact List.mem_cons_of_mem _ h1)
      · rw [List.map_cons] at hx
        rcases List.mem_cons.mp hx with h1 | h1
        · exact Or.inr (by rw [List.map_cons]; exact h1 ▸ List.mem_cons_self _ _)
        · rcases ih h1 with h2 | h2
          · exact Or.inl h2
          · exact Or.inr (by rw [List.map_cons]; exact List.mem_cons_of_mem _ h2)

theorem upsertEntries_sorted (k : K) (h : List Nat) (es : List (K × List Nat))
    (hs : List.Pairwise (· < ·) (es.map Prod.fst)) :
    List.Pairwise (· < ·) ((upsertEntries k h es).map Prod.fst) := by
  induction es with
  | nil => simp [upsertEntries]
  | cons e rest ih =>
    simp only [List.map_cons, List.pairwise_cons] at hs
    simp only [upsertEntries]
    split
    · rename_i hklt
      simp only [List.map_cons, List.pairwise_cons]
      refine ⟨?_, hs.1, hs.2⟩
      intro x hx
      rcases List.mem_cons.mp hx with rfl | hx
      · exact hklt
      · exact lt_trans hklt (hs.1 x hx)
    · split
      · rename_i hkeq
        simp only [List.map_cons, List.pairwise_cons]
        exact ⟨fun x hx => hkeq ▸ hs.1 x hx, hs.2⟩
      · rename_i hklt hkne
        have hgt : e.1 < k := by
          rcases lt_trichotomy k e.1 with hlt | heq | hgt
          · exact absurd hlt hklt
          · exact absurd heq hkne
          · exact hgt
        simp only [List.map_cons, List.pairwise_cons]
        refine ⟨?_, ih hs.2⟩
        intro x hx
        rcases upsertEntries_keys_mem k h rest x hx with rfl | hx
        · exact hgt
        · exact hs.1 x hx

theorem upsertEntries_count (k : K) (h : List Nat) (es : List (K × List Nat))
    (hs : List.Pairwise (· < ·) (es.map Prod.fst)) :
    ((upsertEntries k h es).map Prod.fst).count k = 1 := by
  induction es with
  | nil => simp [upsertEntries]
  | cons e rest ih =>
    simp only [List.map_cons, List.pairwise_cons] at hs
    simp only [upsertEntries]
    split
    · rename_i hklt
      have hnot : k ∉ ((e :: rest).map Prod.fst) := by
        rw [List.map_cons]
        intro hmem
        rcases List.mem_cons.mp hmem with h1 | h1
        · exact absurd (h1 ▸ hklt) (lt_irrefl e.1)
        · exact absurd (lt_trans hklt (hs.1 k h1)) (lt_irrefl k)
      rw [List.map_cons, List.count_cons_self, List.count_eq_zero.mpr hnot]
    · split
      · rename_i hkeq
        have hnot : k ∉ rest.map Prod.fst := by
          intro hmem
          have := hs.1 k hmem
          exact absurd (hkeq ▸ this) (lt_irrefl _)
        rw [List.map_cons, List.count_cons_self, List.count_eq_zero.mpr hnot]
      · rename_i hklt hkne
        rw [List.map_cons, List.count_cons, ih hs.2]
        simp
        exact fun h1 => hkne h1.symm

theorem upsertEntries_idem (k : K) (h : List Nat) (es : List (K × List Nat)) :
    upsertEntries k h (upsertEntries k h es) = upsertEntries k h es := by
  induction es with
  | nil => simp [upsertEntries, lt_irrefl]
  | cons e rest ih =>
    simp only [upsertEntries]
    split
    · simp_all [upsertEntries, lt_irrefl]
    · split
      · simp [upsertEntries, lt_irrefl]
      · rename_i hklt hkne
        simp only [upsertEntries]
        rw [if_neg hklt, if_neg hkne, ih]

theorem upsertEntries_append_left (k : K) (h : List Nat)
    (A B : List (K × List Nat)) (hlt : ∀ e ∈ A, e.1 < k) :
    upsertEntries k h (A ++ B) = A ++ upsertEntries k h B := by
  induction A with
  | nil => simp
  | cons e rest ih =>
    have he := hlt e (List.mem_cons_self e rest)
    simp only [List.cons_append, upsertEntries]
    rw [if_neg (not_lt_of_gt he), if_neg (ne_of_gt he)]
    simpa using ih (fun x hx => hlt x (List.mem_cons_of_mem e hx))

theorem upsertEntries_append_right (k : K) (h : List Nat)
    (B C : List (K × List Nat)) (hgt : ∀ e ∈ C, k < e.1) :
    upsertEntries k h (B ++ C) = upsertEntries k h B ++ C := by
  induction B with
  | nil =>
    cases C with
    | nil => simp
    | cons e rest =>
      have he := hgt e (List.mem_cons_self e rest)
      simp [upsertEntries, if_pos he]
  | cons e rest ih =>
    simp only [List.cons_append, upsertEntries]
    split
    · simp
    · split
      · simp
      · simp [ih]

theorem upsertEntries_eq_parts (k : K) (h : List Nat)
    (es : List (K × List Nat))
    (hs : List.Pairwise (· < ·) (es.map Prod.fst)) :
    ∃ A B, (∀ e ∈ A, e.1 < k) ∧ (∀ e ∈ B, k < e.1) ∧
      upsertEntries k h es = A ++ (k, h) :: B ∧
      (es = A ++ B ∨ ∃ h0, es = A ++ (k, h0) :: B) := by
  induction es with
  | nil => exact ⟨[], [], by simp, by simp, by simp [upsertEntries], Or.inl rfl⟩
  | cons e rest ih =>
    simp only [List.map_cons, List.pairwise_cons] at hs
    by_cases hklt : k < e.1
    · refine ⟨[], e :: rest, by simp, ?_, ?_, Or.inl rfl⟩
      · intro x hx
        rcases List.mem_cons.mp hx with rfl | hx
        · exact hklt
        · exact lt_trans hklt (hs.1 x.1 (List.mem_map_of_mem Prod.fst hx))
      · simp [upsertEntries, if_pos hklt]
    · by_cases hkeq : k = e.1
      · refine ⟨[], rest, by simp, ?_, ?_, Or.inr ⟨e.2, ?_⟩⟩
        · intro x hx
          exact hkeq ▸ hs.1 x.1 (List.mem_map_of_mem Prod.fst hx)
        · simp [upsertEntries, if_neg hklt, if_pos hkeq]
        · rw [hkeq]
          simp
      · obtain ⟨A, B, hA, hB, heq, hrest⟩ := ih hs.2
        refine ⟨e :: A, B, ?_, hB, ?_, ?_⟩
        · intro x hx
          rcases List.mem_cons.mp hx with rfl | hx
          · rcases lt_trichotomy k x.1 with h1 | h1 | h1
            · exact absurd h1 hklt
            · exact absurd h1 hkeq
            · exact h1
          · exact hA x hx
        · simp [upsertEntries, if_neg hklt, if_neg hkeq, heq]
        · rcases hrest with h1 | ⟨h0, h1⟩
          · exact Or.inl (by simp [h1])
          · exact Or.inr ⟨h0, by simp [h1]⟩

/-! ### List helpers for the insert proof -/

theorem listInsertAt_eq {α : Type} :
    ∀ (i : Nat) (a : α) (l : List α),
      listInsertAt i a l = l.take i ++ a :: l.drop i
  | 0, a, l => by simp [listInsertAt]
  | _ + 1, a, [] => by simp [listInsertAt]
  | n + 1, a, x :: xs => by
    simp [listInsertAt, listInsertAt_eq n a xs]

theorem take_takeWhile_len {α : Type} (p : α → Bool) :
    ∀ l : List α, l.take ((l.takeWhile p).length) = l.takeWhile p
  | [] => rfl
  | x :: xs => by
    by_cases hx : p x
    · simp [List.takeWhile_cons, hx, List.take_succ_cons, take_takeWhile_len p xs]
    · simp [List.takeWhile_cons, hx]

theorem drop_takeWhile_len {α : Type} (p : α → Bool) :
    ∀ l : List α, l.drop ((l.takeWhile p).length) = l.dropWhile p
  | [] => rfl
  | x :: xs => by
    by_cases hx : p x
    · simp [List.takeWhile_cons, List.dropWhile_cons, hx, drop_takeWhile_len p xs]
    · simp [List.takeWhile_cons, List.dropWhile_cons, hx]

theorem mem_takeWhile_pred {α : Type} (p : α → Bool) :
    ∀ (l : List α) (x : α), x ∈ l.takeWhile p → p x = true
  | [], x, hx => by cases hx
  | y :: ys, x, hx => by
    by_cases hy : p y
    · rw [List.takeWhile_cons, if_pos hy] at hx
      rcases List.mem_cons.mp hx with rfl | hx
      · exact hy
      · exact mem_takeWhile_pred p ys x hx
    · rw [List.takeWhile_cons, if_neg hy] at hx
      cases hx

theorem get?_len_takeWhile {α : Type} (p : α → Bool) :
    ∀ (l : List α) (c : α),
      l.get? ((l.takeWhile p).length) = some c → p c = false
  | [], c, h => by simp at h
  | x :: xs, c, h => by
    by_cases hx : p x
    · rw [List.takeWhile_cons, if_pos hx] at h
      exact get?_len_takeWhile p xs c h
    · rw [List.takeWhile_cons, if_neg hx] at h
      simp at h
      rw [← h]
      exact Bool.eq_false_iff.mpr hx

theorem len_takeWhile_le {α : Type} (p : α → Bool) :
    ∀ l : List α, (l.takeWhile p).length ≤ l.length
  | [] => le_refl 0
  | x :: xs => by
    by_cases hx : p x
    · simp [List.takeWhile_cons, hx]
      exact len_takeWhile_le p xs
    · simp [List.takeWhile_cons, hx]

theorem all_set {α : Type} {p : α → Bool} {l : List α} {i : Nat} {x : α}
    (h : l.all p = true) (hx : p x = true) : (l.set i x).all p = true := by
  rw [List.all_eq_true] at h ⊢
  intro y hy
  rcases List.mem_or_eq_of_mem_set hy with h1 | rfl
  · exact h y h1
  · exact hx

theorem all_insertAt {α : Type} {p : α → Bool} {l : List α} {i : Nat} {x : α}
    (h : l.all p = true) (hx : p x = true) :
    (listInsertAt i x l).all p = true := by
  rw [listInsertAt_eq, List.all_eq_true]
  rw [List.all_eq_true] at h
  intro y hy
  rcases List.mem_append.mp hy with h1 | h1
  · exact h y (List.mem_of_mem_take h1)
  · rcases List.mem_cons.mp h1 with rfl | h2
    · exact hx
    · exact h y (List.mem_of_mem_drop h2)

theorem all_take {α : Type} {p : α → Bool} {l : List α} (i : Nat)
    (h : l.all p = true) : (l.take i).all p = true := by
  rw [List.all_eq_true] at h ⊢
  exact fun y hy => h y (List.mem_of_mem_take hy)

theorem all_drop {α : Type} {p : α → Bool} {l : List α} (i : Nat)
    (h : l.all p = true) : (l.drop i).all p = true := by
  rw [List.all_eq_true] at h ⊢
  exact fun y hy => h y (List.mem_of_mem_drop hy)

theorem allInternal_of_head {c : Node K} {rest : List (Node K)}
    (hh : homogeneousB (c :: rest) = true) (hc : c.isInternal = true) :
    allInternalB (c :: rest) = true := by
  rcases Bool.or_eq_true_iff.mp hh with h1 | h1
  · exact h1
  · exfalso
    have := (List.all_eq_true.mp h1) c (List.mem_cons_self c rest)
    rw [hc] at this
    exact Bool.noConfusion this

theorem allLeaves_of_head {c : Node K} {rest : List (Node K)}
    (hh : homogeneousB (c :: rest) = true) (hc : c.isInternal = false) :
    allLeavesB (c :: rest) = true := by
  rcases Bool.or_eq_true_iff.mp hh with h1 | h1
  · exfalso
    have := (List.all_eq_true.mp h1) c (List.mem_cons_self c rest)
    rw [hc] at this
    exact Bool.noConfusion this
  · exact h1

theorem allLeaves_entries {cs : List (Node K)} (h : allLeavesB cs = true) :
    entriesList cs = cs.map (fun c => (c.key, c.hash)) := by
  induction cs with
  | nil => rfl
  | cons c rest ih =>
    rw [allLeavesB, List.all_cons, Bool.and_eq_true] at h
    match c, h.1 with
    | .leaf k hh, _ =>
      show Node.entries (.leaf k hh) ++ entriesList rest = _
      rw [List.map_cons]
      simp only [Node.entries, Node.key, Node.hash]
      rw [ih h.2]
      rfl

theorem wfListB_hashes_L32 {m : Nat} {cs : List (Node K)}
    (h : wfListB m cs = true) : L32 (cs.map Node.hash) := by
  intro x hx
  obtain ⟨c, hc, rfl⟩ := List.mem_map.mp hx
  exact wfB_hash_length (wfListB_iff.mp h c hc)

theorem homog_take {cs : List (Node K)} (i : Nat)
    (h : homogeneousB cs = true) : homogeneousB (cs.take i) = true := by
  rcases Bool.or_eq_true_iff.mp h with h1 | h1
  · exact Bool.or_eq_true_iff.mpr (Or.inl (all_take i h1))
  · exact Bool.or_eq_true_iff.mpr (Or.inr (all_take i h1))

theorem homog_drop {cs : List (Node K)} (i : Nat)
    (h : homogeneousB cs = true) : homogeneousB (cs.drop i) = true := by
  rcases Bool.or_eq_true_iff.mp h with h1 | h1
  · exact Bool.or_eq_true_iff.mpr (Or.inl (all_drop i h1))
  · exact Bool.or_eq_true_iff.mpr (Or.inr (all_drop i h1))

theorem wfListB_take {m : Nat} {cs : List (Node K)} (i : Nat)
    (h : wfListB m cs = true) : wfListB m (cs.take i) = true := by
  rw [wfListB_iff] at h ⊢
  exact fun c hc => h c (List.mem_of_mem_take hc)

theorem wfListB_drop {m : Nat} {cs : List (Node K)} (i : Nat)
    (h : wfListB m cs = true) : wfListB m (cs.drop i) = true := by
  rw [wfListB_iff] at h ⊢
  exact fun c hc => h c (List.mem_of_mem_drop hc)

/-! ### The split step (`tree.rs` lines 190-211) -/

theorem splitCheck_spec (H : List Nat) (cs : List (Node K)) (mk : K) (m : Nat)
    (hm : 2 ≤ m) (hne : cs ≠ []) (hlen : cs.length ≤ m + 1)
    (hhash : H = hashFoldChildren cs)
    (hhom : homogeneousB cs = true)
    (hsort : List.Pairwise (· < ·) ((entriesList cs).map Prod.fst))
    (hwfl : wfListB m cs = true) :
    ∃ n2 sibOpt, splitCheck H cs mk m = (n2, sibOpt) ∧
      n2.isInternal = true ∧ Node.wfB m n2 = true ∧
      (match sibOpt with
       | none => n2.entries = entriesList cs
       | some sib => sib.isInternal = true ∧ Node.wfB m sib = true ∧
           n2.entries ++ sib.entries = entriesList cs) := by
  by_cases hsplit : cs.length > m
  case neg =>
    have hglast : cs.getLast? = some (cs.getLast hne) :=
      List.getLast?_eq_getLast cs hne
    refine ⟨Node.internal H cs ((cs.getLast hne).key), none, ?_, rfl, ?_, ?_⟩
    · unfold splitCheck
      rw [if_neg hsplit, hglast]
    · rw [wfB_internal_iff]
      refine ⟨hne, by omega, hhom, hsort, ?_, hhash, hwfl⟩
      unfold lastKeyOkB
      rw [hglast]
      simp
    · simp [Node.entries]
  case pos =>
    have hlen3 : 3 ≤ cs.length := by omega
    have hmid1 : 1 ≤ cs.length / 2 := by omega
    have hmidlt : cs.length / 2 < cs.length := by omega
    have hkeptlen : (cs.take (cs.length / 2)).length = cs.length / 2 := by
      simp [List.length_take]
      omega
    have hdroplen : (cs.drop (cs.length / 2)).length =
        cs.length - cs.length / 2 := List.length_drop _ _
    have hkept_ne : cs.take (cs.length / 2) ≠ [] :=
      List.ne_nil_of_length_pos (by omega)
    have hdrop_ne : cs.drop (cs.length / 2) ≠ [] :=
      List.ne_nil_of_length_pos (by omega)
    have hcs : cs = cs.take (cs.length / 2) ++ cs.drop (cs.length / 2) :=
      (List.take_append_drop _ cs).symm
    have hL : L32 (cs.map Node.hash) := wfListB_hashes_L32 hwfl
    have hLsplit : L32 ((cs.take (cs.length / 2)).map Node.hash) ∧
        L32 ((cs.drop (cs.length / 2)).map Node.hash) := by
      rw [hcs, List.map_append, L32_append] at hL
      exact hL
    have hFK : (xorFoldHashes ((cs.take (cs.length / 2)).map Node.hash)).length
        = 32 := xorFoldHashes_length _ hLsplit.1
    have hFS : (xorFoldHashes ((cs.drop (cs.length / 2)).map Node.hash)).length
        = 32 := xorFoldHashes_length _ hLsplit.2
    have hH : H = xor_assign
        (xorFoldHashes ((cs.take (cs.length / 2)).map Node.hash))
        (xorFoldHashes ((cs.drop (cs.length / 2)).map Node.hash)) := by
      rw [hhash, hashFoldChildren_eq]
      conv_lhs => rw [hcs]
      rw [List.map_append, xorFoldHashes_append _ _ hLsplit.1 hLsplit.2]
    have hkepthash : xor_assign H
        (hashFoldChildren (cs.drop (cs.length / 2))) =
        hashFoldChildren (cs.take (cs.length / 2)) := by
      rw [hashFoldChildren_eq, hashFoldChildren_eq, hH, xor_assign_assoc,
          xor_assign_self32 hFS, xor_zeroHash _ hFK]
    have hglast2 : (cs.drop (cs.length / 2)).getLast? =
        some ((cs.drop (cs.length / 2)).getLast hdrop_ne) :=
      List.getLast?_eq_getLast _ hdrop_ne
    have hglast1 : (cs.take (cs.length / 2)).getLast? =
        some ((cs.take (cs.length / 2)).getLast hkept_ne) :=
      List.getLast?_eq_getLast _ hkept_ne
    have hrecalc : (Node.internal zeroHash (cs.drop (cs.length / 2))
        default).recalculate = Node.internal
          (hashFoldChildren (cs.drop (cs.length / 2)))
          (cs.drop (cs.length / 2))
          (((cs.drop (cs.length / 2)).getLast hdrop_ne).key) := by
      show (match (cs.drop (cs.length / 2)).getLast? with
        | none => Node.internal zeroHash (cs.drop (cs.length / 2)) default
        | some last => Node.internal
            (hashFoldChildren (cs.drop (cs.length / 2)))
            (cs.drop (cs.length / 2)) last.key) = _
      rw [hglast2]
    have hEsplit : entriesList (cs.take (cs.length / 2)) ++
        entriesList (cs.drop (cs.length / 2)) = entriesList cs := by
      conv_rhs => rw [hcs]
      rw [entriesList_append]
    have hsort2 : List.Pairwise (· < ·)
        ((entriesList (cs.take (cs.length / 2))).map Prod.fst) ∧
        List.Pairwise (· < ·)
        ((entriesList (cs.drop (cs.length / 2))).map Prod.fst) := by
      rw [← hEsplit, List.map_append] at hsort
      have := List.pairwise_append.mp hsort
      exact ⟨this.1, this.2.1⟩
    refine ⟨Node.internal
        (xor_assign H (hashFoldChildren (cs.drop (cs.length / 2))))
        (cs.take (cs.length / 2))
        (((cs.take (cs.length / 2)).getLast hkept_ne).key),
      some (Node.internal (hashFoldChildren (cs.drop (cs.length / 2)))
        (cs.drop (cs.length / 2))
        (((cs.drop (cs.length / 2)).getLast hdrop_ne).key)),
      ?_, rfl, ?_, rfl, ?_, ?_⟩
    · simp only [splitCheck]
      rw [if_pos hsplit, hrecalc, hglast1]
      rfl
    · rw [wfB_internal_iff]
      refine ⟨hkept_ne, by omega, homog_take _ hhom, hsort2.1, ?_,
        hkepthash, wfListB_take _ hwfl⟩
      unfold lastKeyOkB
      rw [hglast1]
      simp
    · rw [wfB_internal_iff]
      refine ⟨hdrop_ne, by omega, homog_drop _ hhom, hsort2.2, ?_, rfl,
        wfListB_drop _ hwfl⟩
      unfold lastKeyOkB
      rw [hglast2]
      simp
    · show entriesList _ ++ entriesList _ = entriesList cs
      exact hEsplit

/-! ### Position-based list surgery lemmas -/

theorem set_len_append {α : Type} :
    ∀ (A : List α) (x y : α) (B : List α),
      (A ++ x :: B).set A.length y = A ++ y :: B
  | [], x, y, B => rfl
  | a :: A, x, y, B => by
    simp [List.set, set_len_append A x y B]

theorem get?_len_append {α : Type} :
    ∀ (A : List α) (x : α) (B : List α), (A ++ x :: B).get? A.length = some x
  | [], x, B => rfl
  | a :: A, x, B => by
    simpa using get?_len_append A x B

theorem listInsertAt_succ_append {α : Type} :
    ∀ (A : List α) (x y : α) (B : List α),
      listInsertAt (A.length + 1) y (A ++ x :: B) = A ++ x :: y :: B
  | [], x, y, B => rfl
  | a :: A, x, y, B => by
    simp [listInsertAt, listInsertAt_succ_append A x y B]

theorem listInsertAt_len_append {α : Type} :
    ∀ (A : List α) (y : α) (B : List α),
      listInsertAt A.length y (A ++ B) = A ++ y :: B
  | [], y, B => rfl
  | a :: A, y, B => by
    simp [listInsertAt, listInsertAt_len_append A y B]

theorem cs_decompose {cs : List (Node K)} {i : Nat} (hi : i < cs.length) :
    cs = cs.take i ++ cs.get ⟨i, hi⟩ :: cs.drop (i + 1) ∧
    (cs.take i).length = i := by
  constructor
  · conv_lhs => rw [← List.take_append_drop i cs]
    rw [List.drop_eq_getElem_cons hi]
    rfl
  · simp [List.length_take]
    omega

theorem set_at_of_decompose {cs A B : List (Node K)} {x : Node K} {i : Nat}
    (hdec : cs = A ++ x :: B) (hlenA : A.length = i) (y : Node K) :
    cs.set i y = A ++ y :: B := by
  rw [hdec, ← hlenA]
  exact set_len_append A x y B

theorem get?_at_of_decompose {cs A B : List (Node K)} {x : Node K} {i : Nat}
    (hdec : cs = A ++ x :: B) (hlenA : A.length = i) :
    cs.get? i = some x := by
  rw [hdec, ← hlenA]
  exact get?_len_append A x B

theorem insertAt_of_decompose {cs A B : List (Node K)} {x : Node K} {i : Nat}
    (hdec : cs = A ++ x :: B) (hlenA : A.length = i) (y : Node K) :
    listInsertAt i y cs = A ++ y :: x :: B := by
  rw [hdec, ← hlenA]
  exact listInsertAt_len_append A y (x :: B)

theorem insertAt_succ_of_decompose {cs A B : List (Node K)} {x : Node K}
    {i : Nat} (hdec : cs = A ++ x :: B) (hlenA : A.length = i) (y : Node K) :
    listInsertAt (i + 1) y cs = A ++ x :: y :: B := by
  rw [hdec, ← hlenA]
  exact listInsertAt_succ_append A x y B

theorem get?_succ_len_append {α : Type} :
    ∀ (A : List α) (x y : α) (B : List α),
      (A ++ x :: y :: B).get? (A.length + 1) = some y
  | [], x, y, B => rfl
  | a :: A, x, y, B => by
    simpa using get?_succ_len_append A x y B

theorem updateChild_eq :
    ∀ (cs : List (Node K)) (i : Nat) (c : Node K), cs.get? i = some c →
      ∀ (nn : Node K) (mc : Nat),
      updateChild cs i nn mc =
        (match c.insert nn mc with
         | none => none
         | some (c2, sib) => some (c.hash, c2.hash, sib, cs.set i c2))
  | [], i, c, hg => by simp at hg
  | d :: rest, 0, c, hg => by
    intro nn mc
    have hd : d = c := by simpa using hg
    subst hd
    show (match d.insert nn mc with
      | none => none
      | some (c2, sib) => some (d.hash, c2.hash, sib, c2 :: rest)) = _
    cases d.insert nn mc with
    | none => rfl
    | some p => cases p with | mk c2 sib => simp [List.set]
  | d :: rest, i + 1, c, hg => by
    intro nn mc
    have h2 : rest.get? i = some c := by simpa using hg
    show (match updateChild rest i nn mc with
      | none => none
      | some (oldH, newH, sib, rest2) =>
          some (oldH, newH, sib, d :: rest2)) = _
    rw [updateChild_eq rest i c h2 nn mc]
    cases c.insert nn mc with
    | none => rfl
    | some p => cases p with | mk c2 sib => simp [List.set]

theorem entriesList_keys_lt {k : K} {cs : List (Node K)}
    (hAll : allLeavesB cs = true) (hk : ∀ c ∈ cs, c.key < k) :
    ∀ e ∈ entriesList cs, e.1 < k := by
  rw [allLeaves_entries hAll]
  intro e he
  obtain ⟨c, hc, rfl⟩ := List.mem_map.mp he
  exact hk c hc

/-- Glue: running the split check on a children list whose entries are already
the upsert of the old entries yields well-formed outputs whose entries are that
upsert. -/
theorem splitCheck_upsert {m : Nat} (hm : 2 ≤ m) (H2 : List Nat)
    (children1 : List (Node K)) (mk : K) (E0 : List (K × List Nat))
    (k : K) (h : List Nat)
    (hne1 : children1 ≠ []) (hlen1 : children1.length ≤ m + 1)
    (hhash1 : H2 = hashFoldChildren children1)
    (hhom1 : homogeneousB children1 = true)
    (hEup : entriesList children1 = upsertEntries k h E0)
    (hsortE : List.Pairwise (· < ·) (E0.map Prod.fst))
    (hwfl1 : wfListB m children1 = true) :
    ∃ n2 sibOpt, splitCheck H2 children1 mk m = (n2, sibOpt) ∧
      n2.isInternal = true ∧ Node.wfB m n2 = true ∧
      (match sibOpt with
       | none => n2.entries = upsertEntries k h E0
       | some sib => sib.isInternal = true ∧ Node.wfB m sib = true ∧
           n2.entries ++ sib.entries = upsertEntries k h E0) := by
  obtain ⟨n2, sibOpt, hsc, hint2, hwf2, hrest⟩ :=
    splitCheck_spec H2 children1 mk m hm hne1 hlen1 hhash1 hhom1
      (by rw [hEup]; exact upsertEntries_sorted k h _ hsortE) hwfl1
  refine ⟨n2, sibOpt, hsc, hint2, hwf2, ?_⟩
  cases sibOpt with
  | none =>
    show n2.entries = _
    rw [show n2.entries = entriesList children1 from hrest, hEup]
  | some sib =>
    exact ⟨hrest.1, hrest.2.1, by rw [hrest.2.2, hEup]⟩

/-! ### The leaf-level branch of `Node::insert` (`tree.rs` lines 148-161) -/

theorem insert_leaf_level {m : Nat} (hm : 2 ≤ m) (H : List Nat)
    (cs : List (Node K)) (mk : K)
    (hAllLeaves : allLeavesB cs = true)
    (hwf : Node.wfB m (Node.internal H cs mk) = true)
    (k : K) (h : List Nat) (hh : h.length = 32) :
    ∃ n2 sibOpt,
      (Node.internal H cs mk).insert (Node.leaf k h) m = some (n2, sibOpt) ∧
      n2.isInternal = true ∧ Node.wfB m n2 = true ∧
      (match sibOpt with
       | none => n2.entries = upsertEntries k h (entriesList cs)
       | some sib => sib.isInternal = true ∧ Node.wfB m sib = true ∧
           n2.entries ++ sib.entries = upsertEntries k h (entriesList cs)) := by
  obtain ⟨hne, hlenm, hhom, hsort, hlast, hhash, hwfl⟩ := wfB_internal_iff.mp hwf
  have hL : L32 (cs.map Node.hash) := wfListB_hashes_L32 hwfl
  have hHlen : H.length = 32 := by
    rw [hhash, hashFoldChildren_eq]
    exact xorFoldHashes_length _ hL
  cases cs with
  | nil => exact absurd rfl hne
  | cons c0 rest =>
  have hc0 : c0.isInternal = false := by
    simpa using List.all_eq_true.mp hAllLeaves c0 (List.mem_cons_self c0 rest)
  -- `binarySearch` index facts
  have hbs : binarySearch (c0 :: rest) (Node.leaf k h) =
      (let i := ((c0 :: rest).takeWhile
          (fun c => decide (c.key < k))).length
       match (c0 :: rest).get? i with
       | some c => if c.key = k then .ok i else .error i
       | none => .error i) := by
    simp only [binarySearch, Node.key]
  rcases hget : (c0 :: rest).get?
      (((c0 :: rest).takeWhile (fun c => decide (c.key < k))).length)
    with _ | ci
  case none =>
    -- fresh key, larger than everything: append at the end
    have hilen : (c0 :: rest).length ≤
        ((c0 :: rest).takeWhile (fun c => decide (c.key < k))).length :=
      List.get?_eq_none.mp hget
    have hieq : ((c0 :: rest).takeWhile
        (fun c => decide (c.key < k))).length = (c0 :: rest).length := by
      have := len_takeWhile_le (fun c => decide (c.key < k)) (c0 :: rest)
      omega
    have htww : (c0 :: rest).takeWhile (fun c => decide (c.key < k)) =
        c0 :: rest := by
      have := take_takeWhile_len (fun c => decide (c.key < k)) (c0 :: rest)
      rw [hieq, List.take_length] at this
      exact this.symm
    have hklt : ∀ c ∈ c0 :: rest, c.key < k := by
      intro c hc
      have := mem_takeWhile_pred (fun c => decide (c.key < k)) (c0 :: rest) c
        (htww.symm ▸ hc)
      exact of_decide_eq_true this
    have hEklt : ∀ e ∈ entriesList (c0 :: rest), e.1 < k :=
      entriesList_keys_lt hAllLeaves hklt
    have hchildren1 : listInsertAt
        (((c0 :: rest).takeWhile (fun c => decide (c.key < k))).length)
        (Node.leaf k h) (c0 :: rest) = (c0 :: rest) ++ [Node.leaf k h] := by
      rw [hieq]
      have := listInsertAt_len_append (c0 :: rest) (Node.leaf k h) ([] : List (Node K))
      rw [List.append_nil] at this
      exact this
    have hget2 : ((c0 :: rest) ++ [Node.leaf k h]).get?
        (((c0 :: rest).takeWhile (fun c => decide (c.key < k))).length) =
        some (Node.leaf k h) := by
      rw [hieq]
      exact get?_len_append (c0 :: rest) (Node.leaf k h) []
    have hE1 : entriesList ((c0 :: rest) ++ [Node.leaf k h]) =
        entriesList (c0 :: rest) ++ [(k, h)] := by
      rw [entriesList_append]
      rfl
    have hEup : entriesList ((c0 :: rest) ++ [Node.leaf k h]) =
        upsertEntries k h (entriesList (c0 :: rest)) := by
      rw [hE1]
      have h1 : upsertEntries k h (entriesList (c0 :: rest) ++ []) =
          entriesList (c0 :: rest) ++ upsertEntries k h [] :=
        upsertEntries_append_left k h _ [] hEklt
      rw [List.append_nil] at h1
      rw [h1]
      rfl
    have hhash1 : xor_assign H h =
        hashFoldChildren ((c0 :: rest) ++ [Node.leaf k h]) := by
      rw [hashFoldChildren_eq, List.map_append]
      have : (([Node.leaf k h] : List (Node K)).map Node.hash) = [h] := rfl
      rw [this]
      have hext := xorFoldHashes_extract ((c0 :: rest).map Node.hash) h [] hL hh
        L32_nil
      rw [List.append_nil] at hext
      rw [hext, ← hashFoldChildren_eq, ← hhash, xor_assign_comm]
    obtain ⟨n2, sibOpt, hsc, hint2, hwf2, hrest⟩ :=
      splitCheck_spec (xor_assign H h) ((c0 :: rest) ++ [Node.leaf k h]) mk m
        hm (by simp)
        (by
          simp only [List.length_append, List.length_cons,
            List.length_nil] at hlenm ⊢
          omega)
        hhash1
        (Bool.or_eq_true_iff.mpr (Or.inr (by
          rw [allLeavesB, List.all_append, Bool.and_eq_true]
          exact ⟨hAllLeaves, by simp [allLeavesB, Node.isInternal]⟩)))
        (by rw [hEup]; exact upsertEntries_sorted k h _ hsort)
        (by
          rw [wfListB_iff]
          intro c hc
          rcases List.mem_append.mp hc with h1 | h1
          · exact wfListB_iff.mp hwfl c h1
          · rw [List.mem_singleton.mp h1]
            exact wfB_leaf_iff.mpr hh)
    refine ⟨n2, sibOpt, ?_, hint2, hwf2, ?_⟩
    · simp only [Node.insert, hc0, Bool.not_false, if_true]
      rw [hbs]
      simp only []
      rw [hget]
      simp only []
      rw [hchildren1, hget2]
      simp only [Node.hash]
      rw [hsc]
    · cases sibOpt with
      | none =>
        show n2.entries = _
        rw [hrest, hEup]
      | some sib =>
        exact ⟨hrest.1, hrest.2.1, by rw [hrest.2.2, hEup]⟩
  case some =>
    -- the index is in range
    obtain ⟨hilt, hgeteq⟩ := List.get?_eq_some.mp hget
    obtain ⟨hdec, hlenA⟩ := cs_decompose hilt
    rw [hgeteq] at hdec
    have hcimem : ci ∈ c0 :: rest := by
      rw [hdec]
      exact List.mem_append_right _ (List.mem_cons_self ci _)
    have hcileaf : ∃ ko ho, ci = Node.leaf ko ho := by
      have := List.all_eq_true.mp hAllLeaves ci hcimem
      match ci, this with
      | .leaf ko ho, _ => exact ⟨ko, ho, rfl⟩
    obtain ⟨ko, ho, rfl⟩ := hcileaf
    have hkolt : decide ((Node.leaf ko ho).key < k) = false :=
      get?_len_takeWhile (fun c => decide (c.key < k)) (c0 :: rest)
        (Node.leaf ko ho) hget
    have hkonlt : ¬ ko < k := by
      simp only [Node.key] at hkolt
      exact of_decide_eq_false hkolt
    have hAlt : ∀ c ∈ (c0 :: rest).take
        (((c0 :: rest).takeWhile (fun c => decide (c.key < k))).length),
        c.key < k := by
      rw [take_takeWhile_len]
      intro c hc
      exact of_decide_eq_true (mem_takeWhile_pred _ _ c hc)
    have hAleaves : allLeavesB ((c0 :: rest).take
        (((c0 :: rest).takeWhile (fun c => decide (c.key < k))).length)) = true :=
      all_take _ hAllLeaves
    have hEAlt : ∀ e ∈ entriesList ((c0 :: rest).take
        (((c0 :: rest).takeWhile (fun c => decide (c.key < k))).length)),
        e.1 < k := entriesList_keys_lt hAleaves hAlt
    have hEdec : entriesList (c0 :: rest) =
        entriesList ((c0 :: rest).take
          (((c0 :: rest).takeWhile (fun c => decide (c.key < k))).length)) ++
        (ko, ho) :: entriesList ((c0 :: rest).drop
          ((((c0 :: rest).takeWhile
            (fun c => decide (c.key < k))).length) + 1)) := by
      conv_lhs => rw [hdec]
      rw [entriesList_append]
      rfl
    have hoL : ho.length = 32 := by
      have hmem : Node.leaf ko ho ∈ c0 :: rest := hcimem
      have := hL ((Node.leaf ko ho).hash) (List.mem_map_of_mem Node.hash hmem)
      exact this
    have hmapdec : (c0 :: rest).map Node.hash =
        ((c0 :: rest).take
          (((c0 :: rest).takeWhile (fun c => decide (c.key < k))).length)).map
            Node.hash ++
        ho :: ((c0 :: rest).drop
          ((((c0 :: rest).takeWhile
            (fun c => decide (c.key < k))).length) + 1)).map Node.hash := by
      conv_lhs => rw [hdec]
      rw [List.map_append]
      rfl
    have hLparts : L32 (((c0 :: rest).take
          (((c0 :: rest).takeWhile (fun c => decide (c.key < k))).length)).map
            Node.hash) ∧
        L32 (((c0 :: rest).drop
          ((((c0 :: rest).takeWhile
            (fun c => decide (c.key < k))).length) + 1)).map Node.hash) := by
      have := hL
      rw [hmapdec, L32_append, L32_cons] at this
      exact ⟨this.1, this.2.2⟩
    have hFab : (xorFoldHashes (((c0 :: rest).take
          (((c0 :: rest).takeWhile (fun c => decide (c.key < k))).length)).map
            Node.hash ++
        ((c0 :: rest).drop
          ((((c0 :: rest).takeWhile
            (fun c => decide (c.key < k))).length) + 1)).map
            Node.hash)).length = 32 :=
      xorFoldHashes_length _ (L32_append.mpr hLparts)
    have hHext : H = xor_assign ho (xorFoldHashes (((c0 :: rest).take
          (((c0 :: rest).takeWhile (fun c => decide (c.key < k))).length)).map
            Node.hash ++
        ((c0 :: rest).drop
          ((((c0 :: rest).takeWhile
            (fun c => decide (c.key < k))).length) + 1)).map Node.hash)) := by
      rw [hhash, hashFoldChildren_eq, hmapdec]
      exact xorFoldHashes_extract _ ho _ hLparts.1 hoL hLparts.2
    by_cases hkey : ko = k
    case pos =>
      -- Found: upsert replaces the leaf in place (same slot, new hash).
      subst hkey
      have hset : (c0 :: rest).set
          (((c0 :: rest).takeWhile (fun c => decide (c.key < ko))).length)
          (Node.leaf ko h) =
          (c0 :: rest).take
            (((c0 :: rest).takeWhile (fun c => decide (c.key < ko))).length) ++
          Node.leaf ko h :: (c0 :: rest).drop
            ((((c0 :: rest).takeWhile
              (fun c => decide (c.key < ko))).length) + 1) :=
        set_at_of_decompose hdec hlenA (Node.leaf ko h)
      have hget2 : ((c0 :: rest).take
            (((c0 :: rest).takeWhile (fun c => decide (c.key < ko))).length) ++
          Node.leaf ko h :: (c0 :: rest).drop
            ((((c0 :: rest).takeWhile
              (fun c => decide (c.key < ko))).length) + 1)).get?
          (((c0 :: rest).takeWhile (fun c => decide (c.key < ko))).length) =
          some (Node.leaf ko h) :=
        get?_at_of_decompose rfl hlenA
      have hE1 : entriesList ((c0 :: rest).take
            (((c0 :: rest).takeWhile (fun c => decide (c.key < ko))).length) ++
          Node.leaf ko h :: (c0 :: rest).drop
            ((((c0 :: rest).takeWhile
              (fun c => decide (c.key < ko))).length) + 1)) =
          entriesList ((c0 :: rest).take
            (((c0 :: rest).takeWhile (fun c => decide (c.key < ko))).length)) ++
          (ko, h) :: entriesList ((c0 :: rest).drop
            ((((c0 :: rest).takeWhile
              (fun c => decide (c.key < ko))).length) + 1)) := by
        rw [entriesList_append]
        rfl
      have hEup : entriesList ((c0 :: rest).take
            (((c0 :: rest).takeWhile (fun c => decide (c.key < ko))).length) ++
          Node.leaf ko h :: (c0 :: rest).drop
            ((((c0 :: rest).takeWhile
              (fun c => decide (c.key < ko))).length) + 1)) =
          upsertEntries ko h (entriesList (c0 :: rest)) := by
        rw [hE1, hEdec, upsertEntries_append_left ko h _ _ hEAlt]
        congr 1
        simp [upsertEntries, lt_irrefl]
      have hhash1 : xor_assign (xor_assign H ho) h =
          hashFoldChildren ((c0 :: rest).take
            (((c0 :: rest).takeWhile (fun c => decide (c.key < ko))).length) ++
          Node.leaf ko h :: (c0 :: rest).drop
            ((((c0 :: rest).takeWhile
              (fun c => decide (c.key < ko))).length) + 1)) := by
        rw [hashFoldChildren_eq]
        have hmap1 : ((c0 :: rest).take
            (((c0 :: rest).takeWhile (fun c => decide (c.key < ko))).length) ++
          Node.leaf ko h :: (c0 :: rest).drop
            ((((c0 :: rest).takeWhile
              (fun c => decide (c.key < ko))).length) + 1)).map Node.hash =
            ((c0 :: rest).take
              (((c0 :: rest).takeWhile
                (fun c => decide (c.key < ko))).length)).map Node.hash ++
            h :: ((c0 :: rest).drop
              ((((c0 :: rest).takeWhile
                (fun c => decide (c.key < ko))).length) + 1)).map Node.hash := by
          rw [List.map_append]
          rfl
        rw [hmap1, xorFoldHashes_extract _ h _ hLparts.1 hh hLparts.2, hHext]
        exact xor_shuffle1 hoL hFab
      obtain ⟨n2, sibOpt, hsc, hint2, hwf2, hrest⟩ :=
        splitCheck_upsert hm (xor_assign (xor_assign H ho) h) _ mk
          (entriesList (c0 :: rest)) ko h
          (by
            intro hcon
            have := congrArg List.length hcon
            simp at this)
          (by
            have hlen0 := congrArg List.length hdec
            simp only [List.length_append, List.length_cons]
              at hlen0 hlenm ⊢
            omega)
          hhash1
          (by
            rw [homogeneousB, Bool.or_eq_true_iff]
            right
            rw [allLeavesB, List.all_eq_true]
            intro c hc
            rcases List.mem_append.mp hc with h1 | h1
            · exact List.all_eq_true.mp hAllLeaves c
                (by rw [hdec]; exact List.mem_append_left _ h1)
            · rcases List.mem_cons.mp h1 with rfl | h2
              · rfl
              · exact List.all_eq_true.mp hAllLeaves c
                  (by rw [hdec]
                      exact List.mem_append_right _ (List.mem_cons_of_mem _ h2)))
          hEup hsort
          (by
            rw [wfListB_iff]
            intro c hc
            rcases List.mem_append.mp hc with h1 | h1
            · exact wfListB_iff.mp hwfl c
                (by rw [hdec]; exact List.mem_append_left _ h1)
            · rcases List.mem_cons.mp h1 with rfl | h2
              · exact wfB_leaf_iff.mpr hh
              · exact wfListB_iff.mp hwfl c
                  (by rw [hdec]
                      exact List.mem_append_right _ (List.mem_cons_of_mem _ h2)))
      refine ⟨n2, sibOpt, ?_, hint2, hwf2, hrest⟩
      simp only [Node.insert, hc0, Bool.not_false, if_true]
      rw [hbs]
      simp only []
      rw [hget]
      simp only []
      rw [if_pos (show (Node.leaf ko ho).key = ko from rfl)]
      simp only []
      rw [hget]
      simp only []
      rw [hset, hget2]
      simp only [Node.hash]
      rw [hsc]
    case neg =>
      -- Not found: the fresh leaf is inserted at the sorted position.
      have hklt2 : k < ko := by
        rcases lt_trichotomy k ko with h1 | h1 | h1
        · exact h1
        · exact absurd h1.symm hkey
        · exact absurd h1 hkonlt
      have hins : listInsertAt
          (((c0 :: rest).takeWhile (fun c => decide (c.key < k))).length)
          (Node.leaf k h) (c0 :: rest) =
          (c0 :: rest).take
            (((c0 :: rest).takeWhile (fun c => decide (c.key < k))).length) ++
          Node.leaf k h :: Node.leaf ko ho :: (c0 :: rest).drop
            ((((c0 :: rest).takeWhile
              (fun c => decide (c.key < k))).length) + 1) :=
        insertAt_of_decompose hdec hlenA (Node.leaf k h)
      have hget2 : ((c0 :: rest).take
            (((c0 :: rest).takeWhile (fun c => decide (c.key < k))).length) ++
          Node.leaf k h :: Node.leaf ko ho :: (c0 :: rest).drop
            ((((c0 :: rest).takeWhile
              (fun c => decide (c.key < k))).length) + 1)).get?
          (((c0 :: rest).takeWhile (fun c => decide (c.key < k))).length) =
          some (Node.leaf k h) :=
        get?_at_of_decompose rfl hlenA
      have hEup : entriesList ((c0 :: rest).take
            (((c0 :: rest).takeWhile (fun c => decide (c.key < k))).length) ++
          Node.leaf k h :: Node.leaf ko ho :: (c0 :: rest).drop
            ((((c0 :: rest).takeWhile
              (fun c => decide (c.key < k))).length) + 1)) =
          upsertEntries k h (entriesList (c0 :: rest)) := by
        rw [entriesList_append, hEdec, upsertEntries_append_left k h _ _ hEAlt]
        congr 1
        show Node.entries (Node.leaf k h) ++
          (Node.entries (Node.leaf ko ho) ++ entriesList _) = _
        simp [Node.entries, upsertEntries, if_pos hklt2]
      have hhash1 : xor_assign H h =
          hashFoldChildren ((c0 :: rest).take
            (((c0 :: rest).takeWhile (fun c => decide (c.key < k))).length) ++
          Node.leaf k h :: Node.leaf ko ho :: (c0 :: rest).drop
            ((((c0 :: rest).takeWhile
              (fun c => decide (c.key < k))).length) + 1)) := by
        rw [hashFoldChildren_eq]
        have hmap1 : ((c0 :: rest).take
            (((c0 :: rest).takeWhile (fun c => decide (c.key < k))).length) ++
          Node.leaf k h :: Node.leaf ko ho :: (c0 :: rest).drop
            ((((c0 :: rest).takeWhile
              (fun c => decide (c.key < k))).length) + 1)).map Node.hash =
            ((c0 :: rest).take
              (((c0 :: rest).takeWhile
                (fun c => decide (c.key < k))).length)).map Node.hash ++
            h :: (ho :: ((c0 :: rest).drop
              ((((c0 :: rest).takeWhile
                (fun c => decide (c.key < k))).length) + 1)).map Node.hash) := by
          rw [List.map_append]
          rfl
        rw [hmap1, xorFoldHashes_extract _ h _ hLparts.1 hh
            (L32_cons.mpr ⟨hoL, hLparts.2⟩), ← hmapdec, ← hashFoldChildren_eq,
            ← hhash, xor_assign_comm]
      obtain ⟨n2, sibOpt, hsc, hint2, hwf2, hrest⟩ :=
        splitCheck_upsert hm (xor_assign H h) _ mk
          (entriesList (c0 :: rest)) k h
          (by
            intro hcon
            have := congrArg List.length hcon
            simp at this)
          (by
            have hlen0 := congrArg List.length hdec
            simp only [List.length_append, List.length_cons]
              at hlen0 hlenm ⊢
            omega)
          hhash1
          (by
            rw [homogeneousB, Bool.or_eq_true_iff]
            right
            rw [allLeavesB, List.all_eq_true]
            intro c hc
            rcases List.mem_append.mp hc with h1 | h1
            · exact List.all_eq_true.mp hAllLeaves c
                (by rw [hdec]; exact List.mem_append_left _ h1)
            · rcases List.mem_cons.mp h1 with rfl | h2
              · rfl
              · rcases List.mem_cons.mp h2 with rfl | h3
                · rfl
                · exact List.all_eq_true.mp hAllLeaves c
                    (by rw [hdec]
                        exact List.mem_append_right _
                          (List.mem_cons_of_mem _ h3)))
          hEup hsort
          (by
            rw [wfListB_iff]
            intro c hc
            rcases List.mem_append.mp hc with h1 | h1
            · exact wfListB_iff.mp hwfl c
                (by rw [hdec]; exact List.mem_append_left _ h1)
            · rcases List.mem_cons.mp h1 with rfl | h2
              · exact wfB_leaf_iff.mpr hh
              · rcases List.mem_cons.mp h2 with rfl | h3
                · exact wfListB_iff.mp hwfl _
                    (by rw [hdec]
                        exact List.mem_append_right _ (List.mem_cons_self _ _))
                · exact wfListB_iff.mp hwfl c
                    (by rw [hdec]
                        exact List.mem_append_right _
                          (List.mem_cons_of_mem _ h3)))
      refine ⟨n2, sibOpt, ?_, hint2, hwf2, hrest⟩
      simp only [Node.insert, hc0, Bool.not_false, if_true]
      rw [hbs]
      simp only []
      rw [hget]
      simp only []
      rw [if_neg (show ¬ (Node.leaf ko ho).key = k from hkey)]
      simp only []
      rw [hins, hget2]
      simp only [Node.hash]
      rw [hsc]

theorem getLast?_mem {α : Type} {l : List α} {a : α}
    (h : l.getLast? = some a) : a ∈ l := by
  have hne : l ≠ [] := by
    intro hx
    rw [hx] at h
    exact Option.noConfusion h
  rw [List.getLast?_eq_getLast l hne] at h
  rw [← Option.some.inj h]
  exact List.getLast_mem hne

theorem mem_entriesList {l : List (Node K)} {e : K × List Nat}
    (he : e ∈ entriesList l) : ∃ c ∈ l, e ∈ c.entries := by
  induction l with
  | nil => cases he
  | cons c cs ih =>
    rcases List.mem_append.mp he with h1 | h1
    · exact ⟨c, List.mem_cons_self c cs, h1⟩
    · obtain ⟨d, hd, hed⟩ := ih h1
      exact ⟨d, List.mem_cons_of_mem c hd, hed⟩

/-! ### The descent branch of `Node::insert` (`tree.rs` lines 162-187) -/

theorem descent_glue_none {m : Nat} (hm : 2 ≤ m) {H : List Nat} {mk : K}
    {A B : List (Node K)} {pivot : Node K} {cs : List (Node K)} {i : Nat}
    (hdec : cs = A ++ pivot :: B) (hlenA : A.length = i)
    (hwf : Node.wfB m (Node.internal H cs mk) = true)
    (hAllInt : allInternalB cs = true)
    {k : K} {h : List Nat}
    (hApre : ∀ e ∈ entriesList A, e.1 < k)
    (hBpost : ∀ e ∈ entriesList B, k < e.1)
    {p2 : Node K}
    (hp2int : p2.isInternal = true) (hp2wf : Node.wfB m p2 = true)
    (hp2E : p2.entries = upsertEntries k h (Node.entries pivot)) :
    ∃ n2 sibOpt,
      splitCheck (xor_assign (xor_assign H pivot.hash) p2.hash) (cs.set i p2)
        mk m = (n2, sibOpt) ∧
      n2.isInternal = true ∧ Node.wfB m n2 = true ∧
      (match sibOpt with
       | none => n2.entries = upsertEntries k h (entriesList cs)
       | some sib => sib.isInternal = true ∧ Node.wfB m sib = true ∧
           n2.entries ++ sib.entries = upsertEntries k h (entriesList cs)) := by
  obtain ⟨hne, hlenm, hhom, hsort, hlast, hhash, hwfl⟩ := wfB_internal_iff.mp hwf
  have hL : L32 (cs.map Node.hash) := wfListB_hashes_L32 hwfl
  have hpwf : Node.wfB m pivot = true :=
    wfListB_iff.mp hwfl pivot
      (by rw [hdec]; exact List.mem_append_right _ (List.mem_cons_self _ _))
  have hpiv32 : pivot.hash.length = 32 := wfB_hash_length hpwf
  have hp232 : p2.hash.length = 32 := wfB_hash_length hp2wf
  have hset : cs.set i p2 = A ++ p2 :: B := set_at_of_decompose hdec hlenA p2
  have hEcs : entriesList cs =
      entriesList A ++ (pivot.entries ++ entriesList B) := by
    rw [hdec, entriesList_append]
    rfl
  have hEup : entriesList (A ++ p2 :: B) =
      upsertEntries k h (entriesList cs) := by
    rw [hEcs, upsertEntries_append_left k h _ _ hApre,
        upsertEntries_append_right k h _ _ hBpost, entriesList_append]
    show entriesList A ++ (p2.entries ++ entriesList B) = _
    rw [hp2E]
  have hmapdec : cs.map Node.hash =
      A.map Node.hash ++ pivot.hash :: B.map Node.hash := by
    rw [hdec, List.map_append]
    rfl
  have hLparts : L32 (A.map Node.hash) ∧ L32 (B.map Node.hash) := by
    have := hL
    rw [hmapdec, L32_append, L32_cons] at this
    exact ⟨this.1, this.2.2⟩
  have hFab : (xorFoldHashes (A.map Node.hash ++ B.map Node.hash)).length = 32 :=
    xorFoldHashes_length _ (L32_append.mpr hLparts)
  have hHext : H = xor_assign pivot.hash
      (xorFoldHashes (A.map Node.hash ++ B.map Node.hash)) := by
    rw [hhash, hashFoldChildren_eq, hmapdec]
    exact xorFoldHashes_extract _ pivot.hash _ hLparts.1 hpiv32 hLparts.2
  have hhash1 : xor_assign (xor_assign H pivot.hash) p2.hash =
      hashFoldChildren (A ++ p2 :: B) := by
    rw [hashFoldChildren_eq]
    have hmap1 : (A ++ p2 :: B).map Node.hash =
        A.map Node.hash ++ p2.hash :: B.map Node.hash := by
      rw [List.map_append]
      rfl
    rw [hmap1, xorFoldHashes_extract _ p2.hash _ hLparts.1 hp232 hLparts.2,
        hHext]
    exact xor_shuffle1 hpiv32 hFab
  have hres := splitCheck_upsert hm _ (A ++ p2 :: B) mk (entriesList cs) k h
    (by
      intro hcon
      have := congrArg List.length hcon
      simp at this)
    (by
      have hlen0 := congrArg List.length hdec
      simp only [List.length_append, List.length_cons] at hlen0 hlenm ⊢
      omega)
    hhash1
    (by
      rw [homogeneousB, Bool.or_eq_true_iff]
      left
      rw [allInternalB, List.all_eq_true]
      intro c hc
      rcases List.mem_append.mp hc with h1 | h1
      · exact List.all_eq_true.mp hAllInt c
          (by rw [hdec]; exact List.mem_append_left _ h1)
      · rcases List.mem_cons.mp h1 with rfl | h2
        · exact hp2int
        · exact List.all_eq_true.mp hAllInt c
            (by rw [hdec]
                exact List.mem_append_right _ (List.mem_cons_of_mem _ h2)))
    hEup hsort
    (by
      rw [wfListB_iff]
      intro c hc
      rcases List.mem_append.mp hc with h1 | h1
      · exact wfListB_iff.mp hwfl c
          (by rw [hdec]; exact List.mem_append_left _ h1)
      · rcases List.mem_cons.mp h1 with rfl | h2
        · exact hp2wf
        · exact wfListB_iff.mp hwfl c
            (by rw [hdec]
                exact List.mem_append_right _ (List.mem_cons_of_mem _ h2)))
  rw [← hset] at hres
  exact hres

theorem descent_glue_some {m : Nat} (hm : 2 ≤ m) {H : List Nat} {mk : K}
    {A B : List (Node K)} {pivot : Node K} {cs : List (Node K)} {i : Nat}
    (hdec : cs = A ++ pivot :: B) (hlenA : A.length = i)
    (hwf : Node.wfB m (Node.internal H cs mk) = true)
    (hAllInt : allInternalB cs = true)
    {k : K} {h : List Nat}
    (hApre : ∀ e ∈ entriesList A, e.1 < k)
    (hBpost : ∀ e ∈ entriesList B, k < e.1)
    {p2 sib2 : Node K}
    (hp2int : p2.isInternal = true) (hp2wf : Node.wfB m p2 = true)
    (hsib2int : sib2.isInternal = true) (hsib2wf : Node.wfB m sib2 = true)
    (hE2 : p2.entries ++ sib2.entries =
      upsertEntries k h (Node.entries pivot)) :
    ∃ n2 sibOpt,
      splitCheck
        (xor_assign (xor_assign (xor_assign H pivot.hash) p2.hash) sib2.hash)
        (listInsertAt (i + 1) sib2 (cs.set i p2)) mk m = (n2, sibOpt) ∧
      n2.isInternal = true ∧ Node.wfB m n2 = true ∧
      (match sibOpt with
       | none => n2.entries = upsertEntries k h (entriesList cs)
       | some sib => sib.isInternal = true ∧ Node.wfB m sib = true ∧
           n2.entries ++ sib.entries = upsertEntries k h (entriesList cs)) := by
  obtain ⟨hne, hlenm, hhom, hsort, hlast, hhash, hwfl⟩ := wfB_internal_iff.mp hwf
  have hL : L32 (cs.map Node.hash) := wfListB_hashes_L32 hwfl
  have hpwf : Node.wfB m pivot = true :=
    wfListB_iff.mp hwfl pivot
      (by rw [hdec]; exact List.mem_append_right _ (List.mem_cons_self _ _))
  have hpiv32 : pivot.hash.length = 32 := wfB_hash_length hpwf
  have hp232 : p2.hash.length = 32 := wfB_hash_length hp2wf
  have hs232 : sib2.hash.length = 32 := wfB_hash_length hsib2wf
  have hset : cs.set i p2 = A ++ p2 :: B := set_at_of_decompose hdec hlenA p2
  have hins : listInsertAt (i + 1) sib2 (A ++ p2 :: B) =
      A ++ p2 :: sib2 :: B :=
    insertAt_succ_of_decompose rfl hlenA sib2
  have hEcs : entriesList cs =
      entriesList A ++ (pivot.entries ++ entriesList B) := by
    rw [hdec, entriesList_append]
    rfl
  have hEup : entriesList (A ++ p2 :: sib2 :: B) =
      upsertEntries k h (entriesList cs) := by
    rw [hEcs, upsertEntries_append_left k h _ _ hApre,
        upsertEntries_append_right k h _ _ hBpost, entriesList_append]
    show entriesList A ++ (p2.entries ++ (sib2.entries ++ entriesList B)) = _
    rw [← hE2]
    simp [List.append_assoc]
  have hmapdec : cs.map Node.hash =
      A.map Node.hash ++ pivot.hash :: B.map Node.hash := by
    rw [hdec, List.map_append]
    rfl
  have hLparts : L32 (A.map Node.hash) ∧ L32 (B.map Node.hash) := by
    have := hL
    rw [hmapdec, L32_append, L32_cons] at this
    exact ⟨this.1, this.2.2⟩
  have hFab : (xorFoldHashes (A.map Node.hash ++ B.map Node.hash)).length = 32 :=
    xorFoldHashes_length _ (L32_append.mpr hLparts)
  have hHext : H = xor_assign pivot.hash
      (xorFoldHashes (A.map Node.hash ++ B.map Node.hash)) := by
    rw [hhash, hashFoldChildren_eq, hmapdec]
    exact xorFoldHashes_extract _ pivot.hash _ hLparts.1 hpiv32 hLparts.2
  have hhash1 : xor_assign
      (xor_assign (xor_assign H pivot.hash) p2.hash) sib2.hash =
      hashFoldChildren (A ++ p2 :: sib2 :: B) := by
    rw [hashFoldChildren_eq]
    have hmap1 : (A ++ p2 :: sib2 :: B).map Node.hash =
        A.map Node.hash ++ p2.hash :: sib2.hash :: B.map Node.hash := by
      rw [List.map_append]
      rfl
    rw [hmap1,
        xorFoldHashes_extract _ p2.hash _ hLparts.1 hp232
          (L32_cons.mpr ⟨hs232, hLparts.2⟩)]
    have hmap2 : (A.map Node.hash ++ sib2.hash :: B.map Node.hash) =
        A.map Node.hash ++ sib2.hash :: B.map Node.hash := rfl
    rw [xorFoldHashes_extract _ sib2.hash _ hLparts.1 hs232 hLparts.2, hHext]
    rw [show xor_assign (xor_assign (xor_assign pivot.hash
        (xorFoldHashes (A.map Node.hash ++ B.map Node.hash))) pivot.hash)
        p2.hash = xor_assign p2.hash
        (xorFoldHashes (A.map Node.hash ++ B.map Node.hash)) from
      xor_shuffle1 hpiv32 hFab]
    rw [xor_assign_assoc, xor_assign_comm
      (xorFoldHashes (A.map Node.hash ++ B.map Node.hash)) sib2.hash]
  have hres := splitCheck_upsert hm _ (A ++ p2 :: sib2 :: B) mk
    (entriesList cs) k h
    (by
      intro hcon
      have := congrArg List.length hcon
      simp at this)
    (by
      have hlen0 := congrArg List.length hdec
      simp only [List.length_append, List.length_cons] at hlen0 hlenm ⊢
      omega)
    hhash1
    (by
      rw [homogeneousB, Bool.or_eq_true_iff]
      left
      rw [allInternalB, List.all_eq_true]
      intro c hc
      rcases List.mem_append.mp hc with h1 | h1
      · exact List.all_eq_true.mp hAllInt c
          (by rw [hdec]; exact List.mem_append_left _ h1)
      · rcases List.mem_cons.mp h1 with rfl | h2
        · exact hp2int
        · rcases List.mem_cons.mp h2 with rfl | h3
          · exact hsib2int
          · exact List.all_eq_true.mp hAllInt c
              (by rw [hdec]
                  exact List.mem_append_right _ (List.mem_cons_of_mem _ h3)))
    hEup hsort
    (by
      rw [wfListB_iff]
      intro c hc
      rcases List.mem_append.mp hc with h1 | h1
      · exact wfListB_iff.mp hwfl c
          (by rw [hdec]; exact List.mem_append_left _ h1)
      · rcases List.mem_cons.mp h1 with rfl | h2
        · exact hp2wf
        · rcases List.mem_cons.mp h2 with rfl | h3
          · exact hsib2wf
          · exact wfListB_iff.mp hwfl c
              (by rw [hdec]
                  exact List.mem_append_right _ (List.mem_cons_of_mem _ h3)))
  rw [← hins, ← hset] at hres
  exact hres

theorem insert_desc_step {m : Nat} (hm : 2 ≤ m) {H : List Nat} {mk : K}
    {c0 : Node K} {rest : List (Node K)} (hc0 : c0.isInternal = true)
    {k : K} {h : List Nat}
    {i : Nat}
    (hci : (if ((c0 :: rest).takeWhile
          (fun c => decide (c.key < k))).length = (c0 :: rest).length
        then (c0 :: rest).length - 1
        else ((c0 :: rest).takeWhile
          (fun c => decide (c.key < k))).length) = i)
    {A B : List (Node K)} {pivot : Node K}
    (hdec : c0 :: rest = A ++ pivot :: B) (hlenA : A.length = i)
    (hwf : Node.wfB m (Node.internal H (c0 :: rest) mk) = true)
    (hAllInt : allInternalB (c0 :: rest) = true)
    (hApre : ∀ e ∈ entriesList A, e.1 < k)
    (hBpost : ∀ e ∈ entriesList B, k < e.1)
    (hpivot_result : ∃ p2 sibOpt2,
      pivot.insert (Node.leaf k h) m = some (p2, sibOpt2) ∧
      p2.isInternal = true ∧ Node.wfB m p2 = true ∧
      (match sibOpt2 with
       | none => p2.entries = upsertEntries k h pivot.entries
       | some sib2 => sib2.isInternal = true ∧ Node.wfB m sib2 = true ∧
           p2.entries ++ sib2.entries = upsertEntries k h pivot.entries)) :
    ∃ n2 sibOpt,
      (Node.internal H (c0 :: rest) mk).insert (Node.leaf k h) m =
        some (n2, sibOpt) ∧
      n2.isInternal = true ∧ Node.wfB m n2 = true ∧
      (match sibOpt with
       | none => n2.entries = upsertEntries k h (entriesList (c0 :: rest))
       | some sib => sib.isInternal = true ∧ Node.wfB m sib = true ∧
           n2.entries ++ sib.entries =
             upsertEntries k h (entriesList (c0 :: rest))) := by
  obtain ⟨p2, sibOpt2, hpins, hp2int, hp2wf, hprest⟩ := hpivot_result
  have hgetp : (c0 :: rest).get? i = some pivot :=
    get?_at_of_decompose hdec hlenA
  have huc : updateChild (c0 :: rest) i (Node.leaf k h) m =
      some (pivot.hash, p2.hash, sibOpt2, (c0 :: rest).set i p2) := by
    rw [updateChild_eq (c0 :: rest) i pivot hgetp (Node.leaf k h) m, hpins]
  cases sibOpt2 with
  | none =>
    obtain ⟨n2, sibOpt, hsc, hint2, hwf2, hfin⟩ :=
      descent_glue_none hm hdec hlenA hwf hAllInt hApre hBpost
        hp2int hp2wf hprest
    refine ⟨n2, sibOpt, ?_, hint2, hwf2, hfin⟩
    simp only [Node.insert, hc0, Bool.not_true, partitionPoint,
      Bool.false_eq_true, if_false,
      show (Node.leaf k h).key = k from rfl]
    rw [hci, huc]
    simp only []
    rw [hsc]
  | some sib2 =>
    obtain ⟨hsib2int, hsib2wf, hE2⟩ := hprest
    obtain ⟨n2, sibOpt, hsc, hint2, hwf2, hfin⟩ :=
      descent_glue_some hm hdec hlenA hwf hAllInt hApre hBpost
        hp2int hp2wf hsib2int hsib2wf hE2
    refine ⟨n2, sibOpt, ?_, hint2, hwf2, hfin⟩
    have hset := set_at_of_decompose hdec hlenA p2
    have hins2 : listInsertAt (i + 1) sib2 ((c0 :: rest).set i p2) =
        A ++ p2 :: sib2 :: B := by
      rw [hset]
      exact insertAt_succ_of_decompose rfl hlenA sib2
    have hget3 : (listInsertAt (i + 1) sib2 ((c0 :: rest).set i p2)).get?
        (i + 1) = some sib2 := by
      rw [hins2, ← hlenA]
      exact get?_succ_len_append A p2 sib2 B
    simp only [Node.insert, hc0, Bool.not_true, partitionPoint,
      Bool.false_eq_true, if_false,
      show (Node.leaf k h).key = k from rfl]
    rw [hci, huc]
    simp only []
    rw [hget3]
    simp only []
    rw [hsc]

/-! ### The full `Node::insert` specification -/

theorem insert_spec {m : Nat} (hm : 2 ≤ m) :
    ∀ (N : Nat) (n : Node K), n.size ≤ N → Node.wfB m n = true →
      n.isInternal = true → ∀ (k : K) (h : List Nat), h.length = 32 →
      ∃ n2 sibOpt, n.insert (Node.leaf k h) m = some (n2, sibOpt) ∧
        n2.isInternal = true ∧ Node.wfB m n2 = true ∧
        (match sibOpt with
         | none => n2.entries = upsertEntries k h n.entries
         | some sib => sib.isInternal = true ∧ Node.wfB m sib = true ∧
             n2.entries ++ sib.entries = upsertEntries k h n.entries) := by
  intro N
  induction N with
  | zero =>
    intro n hsz _ _ _ _ _
    have := size_pos n
    omega
  | succ N ih =>
    intro n hsz hwf hint k h hh
    match n, hint with
    | .internal H cs mk, _ =>
    obtain ⟨hne, hlenm, hhom, hsort, hlast, hhash, hwfl⟩ :=
      wfB_internal_iff.mp hwf
    cases cs with
    | nil => exact absurd rfl hne
    | cons c0 rest =>
    by_cases hc0 : c0.isInternal = true
    case neg =>
      have hc0f : c0.isInternal = false := by
        cases hx : c0.isInternal with
        | true => exact absurd hx hc0
        | false => rfl
      have hAllLeaves := allLeaves_of_head hhom hc0f
      exact insert_leaf_level hm H (c0 :: rest) mk hAllLeaves hwf k h hh
    case pos =>
      have hAllInt : allInternalB (c0 :: rest) = true :=
        allInternal_of_head hhom hc0
      have hsizes : sizeList (c0 :: rest) ≤ N := by
        have : (Node.internal H (c0 :: rest) mk).size =
            1 + sizeList (c0 :: rest) := rfl
        omega
      by_cases hclamp : ((c0 :: rest).takeWhile
          (fun c => decide (c.key < k))).length = (c0 :: rest).length
      case neg =>
        -- the new key does not exceed every child key: descend at the
        -- partition point
        have hilt : ((c0 :: rest).takeWhile
            (fun c => decide (c.key < k))).length < (c0 :: rest).length :=
          lt_of_le_of_ne (len_takeWhile_le _ _) hclamp
        obtain ⟨hdec, hlenA⟩ := cs_decompose hilt
        have hpmem : (c0 :: rest).get ⟨_, hilt⟩ ∈ c0 :: rest :=
          (c0 :: rest).get_mem _ _
        have hpwf : Node.wfB m ((c0 :: rest).get ⟨_, hilt⟩) = true :=
          wfListB_iff.mp hwfl _ hpmem
        have hpint : ((c0 :: rest).get ⟨_, hilt⟩).isInternal = true :=
          List.all_eq_true.mp hAllInt _ hpmem
        have hpsize : ((c0 :: rest).get ⟨_, hilt⟩).size ≤ N := by
          have := size_le_of_mem hpmem
          omega
        have hApre : ∀ e ∈ entriesList ((c0 :: rest).take
            (((c0 :: rest).takeWhile
              (fun c => decide (c.key < k))).length)), e.1 < k := by
          intro e he
          obtain ⟨c, hc, hec⟩ := mem_entriesList he
          have hcmem : c ∈ c0 :: rest := List.mem_of_mem_take hc
          have hckey : c.key < k := by
            rw [take_takeWhile_len] at hc
            exact of_decide_eq_true (mem_takeWhile_pred _ _ c hc)
          have := wfB_keys_le (wfListB_iff.mp hwfl c hcmem) e.1
            (List.mem_map_of_mem Prod.fst hec)
          exact lt_of_le_of_lt this hckey
        have hknlt : ¬ ((c0 :: rest).get ⟨_, hilt⟩).key < k := by
          have hget0 : (c0 :: rest).get? (((c0 :: rest).takeWhile
              (fun c => decide (c.key < k))).length) =
              some ((c0 :: rest).get ⟨_, hilt⟩) :=
            List.get?_eq_get hilt
          exact of_decide_eq_false (get?_len_takeWhile
            (fun c => decide (c.key < k)) (c0 :: rest)
            ((c0 :: rest).get ⟨_, hilt⟩) hget0)
        have hBpost : ∀ e ∈ entriesList ((c0 :: rest).drop
            ((((c0 :: rest).takeWhile
              (fun c => decide (c.key < k))).length) + 1)), k < e.1 := by
          intro e he
          have hEcs : entriesList (c0 :: rest) =
              entriesList ((c0 :: rest).take
                (((c0 :: rest).takeWhile
                  (fun c => decide (c.key < k))).length)) ++
              (((c0 :: rest).get ⟨_, hilt⟩).entries ++
                entriesList ((c0 :: rest).drop
                  ((((c0 :: rest).takeWhile
                    (fun c => decide (c.key < k))).length) + 1))) := by
            conv_lhs => rw [hdec]
            rw [entriesList_append]
            rfl
          have hs0 := hsort
          rw [hEcs, List.map_append, List.map_append] at hs0
          have hs1 := (List.pairwise_append.mp hs0).2.1
          have hcross := (List.pairwise_append.mp hs1).2.2
          have hpk : ((c0 :: rest).get ⟨_, hilt⟩).key ∈
              (((c0 :: rest).get ⟨_, hilt⟩).entries.map Prod.fst) :=
            getLast?_mem (wfB_keys_getLast hpwf)
          have h1 := hcross _ hpk e.1 (List.mem_map_of_mem Prod.fst he)
          exact lt_of_le_of_lt (le_of_not_lt hknlt) h1
        exact insert_desc_step hm hc0 (if_neg hclamp) hdec hlenA hwf hAllInt
          hApre hBpost (ih _ hpsize hpwf hpint k h hh)
      case pos =>
        -- the new key exceeds every child key: clamp to the last child
        have hlenpos : 0 < (c0 :: rest).length := by simp
        have hilt : (c0 :: rest).length - 1 < (c0 :: rest).length := by omega
        obtain ⟨hdec0, hlenA⟩ := cs_decompose hilt
        have hsucc : (c0 :: rest).length - 1 + 1 = (c0 :: rest).length := by
          omega
        have hdec : c0 :: rest =
            (c0 :: rest).take ((c0 :: rest).length - 1) ++
            (c0 :: rest).get ⟨_, hilt⟩ :: [] := by
          conv_lhs => rw [hdec0]
          rw [hsucc, List.drop_length]
        have hallkey : ∀ c ∈ c0 :: rest, c.key < k := by
          have htww : (c0 :: rest).takeWhile
              (fun c => decide (c.key < k)) = c0 :: rest := by
            have := take_takeWhile_len
              (fun c => decide (c.key < k)) (c0 :: rest)
            rw [hclamp, List.take_length] at this
            exact this.symm
          intro c hc
          exact of_decide_eq_true
            (mem_takeWhile_pred _ _ c (htww.symm ▸ hc))
        have hpmem : (c0 :: rest).get ⟨_, hilt⟩ ∈ c0 :: rest :=
          (c0 :: rest).get_mem _ _
        have hpwf : Node.wfB m ((c0 :: rest).get ⟨_, hilt⟩) = true :=
          wfListB_iff.mp hwfl _ hpmem
        have hpint : ((c0 :: rest).get ⟨_, hilt⟩).isInternal = true :=
          List.all_eq_true.mp hAllInt _ hpmem
        have hpsize : ((c0 :: rest).get ⟨_, hilt⟩).size ≤ N := by
          have := size_le_of_mem hpmem
          omega
        have hApre : ∀ e ∈ entriesList ((c0 :: rest).take
            ((c0 :: rest).length - 1)), e.1 < k := by
          intro e he
          obtain ⟨c, hc, hec⟩ := mem_entriesList he
          have hcmem : c ∈ c0 :: rest := List.mem_of_mem_take hc
          have := wfB_keys_le (wfListB_iff.mp hwfl c hcmem) e.1
            (List.mem_map_of_mem Prod.fst hec)
          exact lt_of_le_of_lt this (hallkey c hcmem)
        have hBpost : ∀ e ∈ entriesList ([] : List (Node K)), k < e.1 := by
          intro e he
          cases he
        exact insert_desc_step hm hc0 (if_pos hclamp) hdec hlenA hwf hAllInt
          hApre hBpost (ih _ hpsize hpwf hpint k h hh)

/-! ### The tree facade (`MerkleSearchTree::insert`) -/

theorem treeWfB_new (m : Nat) :
    treeWfB (MerkleSearchTree.new (K := K) m) = true := by
  simp [treeWfB, MerkleSearchTree.new]

theorem tree_insert_spec (t : MerkleSearchTree K) (hm : 2 ≤ t.max_children)
    (hwf : treeWfB t = true) (hv : String → List Nat)
    (hlen : ∀ v, (hv v).length = 32) (k : K) (v : String) :
    ∃ t2, t.insert hv k v = some t2 ∧ treeWfB t2 = true ∧
      t2.max_children = t.max_children ∧
      t2.root.entries = upsertEntries k (hv v) t.root.entries := by
  obtain ⟨root, mc⟩ := t
  simp only at hm
  match root, hwf with
  | .internal H [] mk0, hwf =>
    have hHz : H = zeroHash := by
      have : (H == zeroHash) = true := hwf
      exact eq_of_beq this
    have hsc : splitCheck (xor_assign H (hv v)) [Node.leaf k (hv v)] mk0 mc =
        (Node.internal (xor_assign H (hv v)) [Node.leaf k (hv v)] k, none) := by
      unfold splitCheck
      rw [if_neg (by
        simp only [List.length_cons, List.length_nil]
        omega : ¬ ([Node.leaf k (hv v)] : List (Node K)).length > mc)]
      rfl
    have hins : Node.insert (Node.internal H ([] : List (Node K)) mk0)
        (Node.leaf k (hv v)) mc =
        some (Node.internal (xor_assign H (hv v)) [Node.leaf k (hv v)] k,
          none) := by
      show some (splitCheck
        (xor_assign H ((Node.leaf k (hv v)).hash)) [Node.leaf k (hv v)]
          mk0 mc) = _
      rw [show (Node.leaf k (hv v)).hash = hv v from rfl, hsc]
    refine ⟨⟨Node.internal (xor_assign H (hv v)) [Node.leaf k (hv v)] k,
      mc⟩, ?_, ?_, rfl, ?_⟩
    · show (match Node.insert (Node.internal H ([] : List (Node K)) mk0)
          (Node.leaf k (hv v)) mc with
        | none => none
        | some (root2, none) => some (⟨root2, mc⟩ : MerkleSearchTree K)
        | some (root2, some newSibling) =>
            some (⟨(Node.internal (hv v) [root2, newSibling]
              default).recalculate, mc⟩ : MerkleSearchTree K)) = _
      rw [hins]
    · show Node.wfB mc (Node.internal (xor_assign H (hv v))
        [Node.leaf k (hv v)] k) = true
      rw [wfB_internal_iff]
      refine ⟨by simp, by simp; omega, by simp [homogeneousB, allLeavesB,
        Node.isInternal], ?_, ?_, ?_, ?_⟩
      · show List.Pairwise (· < ·)
          ((Node.entries (Node.leaf k (hv v)) ++ []).map Prod.fst)
        simp [Node.entries]
      · simp [lastKeyOkB, Node.key]
      · show xor_assign H (hv v) =
          hashFoldChildren [Node.leaf k (hv v)]
        rw [hHz]
        rfl
      · show (Node.wfB mc (Node.leaf k (hv v)) && true) = true
        simp [wfB_leaf_iff.mpr (hlen v)]
    · show entriesList [Node.leaf k (hv v)] =
        upsertEntries k (hv v) (entriesList [])
      rfl
  | .internal H (c1 :: cs1) mk0, hwf =>
    have hwfr : Node.wfB mc (Node.internal H (c1 :: cs1) mk0) = true := hwf
    obtain ⟨n2, sibOpt, hins, hint2, hwf2, hrest⟩ :=
      insert_spec hm (Node.internal H (c1 :: cs1) mk0).size _ le_rfl hwfr rfl
        k (hv v) (hlen v)
    cases sibOpt with
    | none =>
      refine ⟨⟨n2, mc⟩, ?_, ?_, rfl, ?_⟩
      · show (match Node.insert (Node.internal H (c1 :: cs1) mk0)
            (Node.leaf k (hv v)) mc with
          | none => none
          | some (root2, none) => some (⟨root2, mc⟩ : MerkleSearchTree K)
          | some (root2, some newSibling) =>
              some (⟨(Node.internal (hv v) [root2, newSibling]
                default).recalculate, mc⟩ : MerkleSearchTree K)) = _
        rw [hins]
      · show treeWfB ⟨n2, mc⟩ = true
        match n2, hint2 with
        | .internal h2 cs2 mk2, _ =>
          cases cs2 with
          | nil =>
            have := (wfB_internal_iff.mp hwf2).1
            exact absurd rfl this
          | cons d ds => exact hwf2
      · exact hrest
    | some sib =>
      obtain ⟨hsibint, hsibwf, hE2⟩ := hrest
      have hglast : ([n2, sib] : List (Node K)).getLast? = some sib := rfl
      have hrecalc : (Node.internal (hv v) [n2, sib]
          (default : K)).recalculate =
          Node.internal (hashFoldChildren [n2, sib]) [n2, sib] sib.key := by
        show (match ([n2, sib] : List (Node K)).getLast? with
          | none => Node.internal zeroHash [n2, sib] (default : K)
          | some last => Node.internal (hashFoldChildren [n2, sib])
              [n2, sib] last.key) = _
        rw [hglast]
      have hEnew : entriesList [n2, sib] = n2.entries ++ sib.entries := by
        show n2.entries ++ (sib.entries ++ []) = _
        rw [List.append_nil]
      refine ⟨⟨Node.internal (hashFoldChildren [n2, sib]) [n2, sib] sib.key,
        mc⟩, ?_, ?_, rfl, ?_⟩
      · show (match Node.insert (Node.internal H (c1 :: cs1) mk0)
            (Node.leaf k (hv v)) mc with
          | none => none
          | some (root2, none) => some (⟨root2, mc⟩ : MerkleSearchTree K)
          | some (root2, some newSibling) =>
              some (⟨(Node.internal (hv v) [root2, newSibling]
                default).recalculate, mc⟩ : MerkleSearchTree K)) = _
        rw [hins]
        simp only []
        rw [hrecalc]
      · show Node.wfB mc (Node.internal (hashFoldChildren [n2, sib])
          [n2, sib] sib.key) = true
        rw [wfB_internal_iff]
        refine ⟨by simp, by simp; omega, ?_, ?_, ?_, rfl, ?_⟩
        · simp [homogeneousB, allInternalB, hint2, hsibint]
        · rw [hEnew, hE2]
          exact upsertEntries_sorted k (hv v) _ (wfB_entries_sorted hwfr)
        · simp [lastKeyOkB]
        · simp [hwf2, hsibwf, wfListB]
      · show entriesList [n2, sib] = _
        rw [hEnew, hE2]

theorem insertSeq_spec (m : Nat) (hm : 2 ≤ m) (hv : String → List Nat)
    (hlen : ∀ v, (hv v).length = 32) :
    ∀ (ops : List (K × String)) (t : MerkleSearchTree K),
      t.max_children = m → treeWfB t = true →
      ∃ t2, insertSeq hv t ops = some t2 ∧ t2.max_children = m ∧
        treeWfB t2 = true ∧
        t2.root.entries = ops.foldl
          (fun acc e => upsertEntries e.1 (hv e.2) acc) t.root.entries := by
  intro ops
  induction ops with
  | nil =>
    intro t hmc hwf
    exact ⟨t, rfl, hmc, hwf, rfl⟩
  | cons e rest ih =>
    intro t hmc hwf
    obtain ⟨t1, hins, hwf1, hmc1, hE1⟩ :=
      tree_insert_spec t (hmc ▸ hm) hwf hv hlen e.1 e.2
    obtain ⟨t2, hseq, hmc2, hwf2, hE2⟩ := ih t1 (hmc1.trans hmc) hwf1
    refine ⟨t2, ?_, hmc2, hwf2, ?_⟩
    · show (match t.insert hv e.1 e.2 with
        | none => none
        | some t3 => insertSeq hv t3 rest) = some t2
      rw [hins]
      exact hseq
    · rw [hE2, hE1]
      rfl

/-! ### Derived traversal checkers for the spec's invariants -/

theorem mem_entriesList_of_mem {l : List (Node K)} {c : Node K} (hc : c ∈ l)
    {e : K × List Nat} (he : e ∈ c.entries) : e ∈ entriesList l := by
  induction l with
  | nil => cases hc
  | cons d ds ih =>
    rcases List.mem_cons.mp hc with rfl | h1
    · exact List.mem_append_left _ he
    · exact List.mem_append_right _ (ih h1)

mutual

/-- Traversal check for the fan-out bound: every Internal node in the subtree
has at most `m` children. -/
def Node.fanoutOkB (m : Nat) : Node K → Bool
  | .leaf _ _ => true
  | .internal _ cs _ => decide (cs.length ≤ m) && fanoutOkListB m cs

def fanoutOkListB (m : Nat) : List (Node K) → Bool
  | [] => true
  | c :: cs => Node.fanoutOkB m c && fanoutOkListB m cs

end

mutual

/-- Traversal check: within every Internal node of the subtree, the children
are sorted strictly ascending by representative key. -/
def Node.childrenSortedB : Node K → Bool
  | .leaf _ _ => true
  | .internal _ cs _ =>
    decide (List.Pairwise (· < ·) (cs.map Node.key)) && childrenSortedListB cs

def childrenSortedListB : List (Node K) → Bool
  | [] => true
  | c :: cs => Node.childrenSortedB c && childrenSortedListB cs

end

mutual

/-- Traversal check: the cached hash of every node in the subtree equals the
XOR fold of the value hashes of all the Leaves in its own subtree. -/
def Node.subtreeHashOkB : Node K → Bool
  | .leaf _ h => h == xorFoldHashes [h]
  | .internal h cs _ =>
    (h == xorFoldHashes ((entriesList cs).map Prod.snd)) &&
      subtreeHashOkListB cs

def subtreeHashOkListB : List (Node K) → Bool
  | [] => true
  | c :: cs => Node.subtreeHashOkB c && subtreeHashOkListB cs

end

theorem wfB_fanoutOkB {m : Nat} : ∀ (N : Nat) (n : Node K), n.size ≤ N →
    Node.wfB m n = true → Node.fanoutOkB m n = true := by
  intro N
  induction N with
  | zero =>
    intro n hsz _
    have := size_pos n
    omega
  | succ N ih =>
    intro n hsz hwf
    match n with
    | .leaf k h => rfl
    | .internal H cs mk =>
      obtain ⟨_, hlenm, _, _, _, _, hwfl⟩ := wfB_internal_iff.mp hwf
      show (decide (cs.length ≤ m) && fanoutOkListB m cs) = true
      rw [Bool.and_eq_true, decide_eq_true_eq]
      refine ⟨hlenm, ?_⟩
      have hlist : ∀ cs2 : List (Node K), (∀ c ∈ cs2, c ∈ cs) →
          fanoutOkListB m cs2 = true := by
        intro cs2
        induction cs2 with
        | nil => intro _; rfl
        | cons c rest ih2 =>
          intro hsub
          show (Node.fanoutOkB m c && fanoutOkListB m rest) = true
          rw [Bool.and_eq_true]
          have hcmem := hsub c (List.mem_cons_self c rest)
          refine ⟨?_, ih2 (fun d hd => hsub d (List.mem_cons_of_mem c hd))⟩
          apply ih c ?_ (wfListB_iff.mp hwfl c hcmem)
          have := size_le_of_mem hcmem
          simp [Node.size] at hsz
          omega
      exact hlist cs (fun c hc => hc)

theorem children_keys_pairwise {m : Nat} {cs : List (Node K)}
    (hwfl : wfListB m cs = true)
    (hsort : List.Pairwise (· < ·) ((entriesList cs).map Prod.fst)) :
    List.Pairwise (· < ·) (cs.map Node.key) := by
  induction cs with
  | nil => simp
  | cons c rest ih =>
    have hwfl2 : (Node.wfB m c && wfListB m rest) = true := hwfl
    rw [Bool.and_eq_true] at hwfl2
    have hEc : entriesList (c :: rest) = c.entries ++ entriesList rest := rfl
    rw [hEc, List.map_append] at hsort
    have hpw := List.pairwise_append.mp hsort
    rw [List.map_cons, List.pairwise_cons]
    constructor
    · intro x hx
      obtain ⟨d, hd, rfl⟩ := List.mem_map.mp hx
      have hckey : c.key ∈ c.entries.map Prod.fst :=
        getLast?_mem (wfB_keys_getLast hwfl2.1)
      have hdkey : d.key ∈ (entriesList rest).map Prod.fst := by
        have h1 : d.key ∈ d.entries.map Prod.fst :=
          getLast?_mem (wfB_keys_getLast (wfListB_iff.mp hwfl2.2 d hd))
        obtain ⟨e, he, heq⟩ := List.mem_map.mp h1
        rw [← heq]
        exact List.mem_map_of_mem Prod.fst (mem_entriesList_of_mem hd he)
      exact hpw.2.2 _ hckey _ hdkey
    · exact ih hwfl2.2 hpw.2.1

theorem wfB_childrenSortedB {m : Nat} : ∀ (N : Nat) (n : Node K), n.size ≤ N →
    Node.wfB m n = true → Node.childrenSortedB n = true := by
  intro N
  induction N with
  | zero =>
    intro n hsz _
    have := size_pos n
    omega
  | succ N ih =>
    intro n hsz hwf
    match n with
    | .leaf k h => rfl
    | .internal H cs mk =>
      obtain ⟨_, _, _, hsort, _, _, hwfl⟩ := wfB_internal_iff.mp hwf
      show (decide (List.Pairwise (· < ·) (cs.map Node.key)) &&
        childrenSortedListB cs) = true
      rw [Bool.and_eq_true, decide_eq_true_eq]
      refine ⟨children_keys_pairwise hwfl hsort, ?_⟩
      have hlist : ∀ cs2 : List (Node K), (∀ c ∈ cs2, c ∈ cs) →
          childrenSortedListB cs2 = true := by
        intro cs2
        induction cs2 with
        | nil => intro _; rfl
        | cons c rest ih2 =>
          intro hsub
          show (Node.childrenSortedB c && childrenSortedListB rest) = true
          rw [Bool.and_eq_true]
          have hcmem := hsub c (List.mem_cons_self c rest)
          refine ⟨?_, ih2 (fun d hd => hsub d (List.mem_cons_of_mem c hd))⟩
          apply ih c ?_ (wfListB_iff.mp hwfl c hcmem)
          have := size_le_of_mem hcmem
          simp [Node.size] at hsz
          omega
      exact hlist cs (fun c hc => hc)

theorem wfB_subtreeHashOkB {m : Nat} : ∀ (N : Nat) (n : Node K), n.size ≤ N →
    Node.wfB m n = true → Node.subtreeHashOkB n = true := by
  intro N
  induction N with
  | zero =>
    intro n hsz _
    have := size_pos n
    omega
  | succ N ih =>
    intro n hsz hwf
    match n with
    | .leaf k h =>
      have hlen := wfB_leaf_iff.mp hwf
      show (h == xorFoldHashes [h]) = true
      have : xorFoldHashes [h] = h := by
        show xor_assign zeroHash h = h
        exact zeroHash_xor h hlen
      rw [this, beq_self_eq_true]
    | .internal H cs mk =>
      obtain ⟨_, _, _, _, _, _, hwfl⟩ := wfB_internal_iff.mp hwf
      show ((H == xorFoldHashes ((entriesList cs).map Prod.snd)) &&
        subtreeHashOkListB cs) = true
      rw [Bool.and_eq_true]
      constructor
      · have := wfB_subtree_hash hwf
        rw [show (Node.internal H cs mk).hash = H from rfl,
          show (Node.internal H cs mk).entries = entriesList cs from rfl]
          at this
        rw [this, beq_self_eq_true]
      · have hlist : ∀ cs2 : List (Node K), (∀ c ∈ cs2, c ∈ cs) →
            subtreeHashOkListB cs2 = true := by
          intro cs2
          induction cs2 with
          | nil => intro _; rfl
          | cons c rest ih2 =>
            intro hsub
            show (Node.subtreeHashOkB c && subtreeHashOkListB rest) = true
            rw [Bool.and_eq_true]
            have hcmem := hsub c (List.mem_cons_self c rest)
            refine ⟨?_, ih2 (fun d hd => hsub d (List.mem_cons_of_mem c hd))⟩
            apply ih c ?_ (wfListB_iff.mp hwfl c hcmem)
            have := size_le_of_mem hcmem
            simp [Node.size] at hsz
            omega
        exact hlist cs (fun c hc => hc)

theorem treeWfB_fanout {t : MerkleSearchTree K} (hwf : treeWfB t = true) :
    Node.fanoutOkB t.max_children t.root = true := by
  obtain ⟨root, mc⟩ := t
  match root, hwf with
  | .internal H [] mk0, _ =>
    show (decide (([] : List (Node K)).length ≤ mc) &&
      fanoutOkListB mc []) = true
    simp [fanoutOkListB]
  | .internal H (c :: cs) mk0, hwf =>
    exact wfB_fanoutOkB _ _ le_rfl hwf

theorem treeWfB_childrenSorted {t : MerkleSearchTree K}
    (hwf : treeWfB t = true) : Node.childrenSortedB t.root = true := by
  obtain ⟨root, mc⟩ := t
  match root, hwf with
  | .internal H [] mk0, _ =>
    show (decide (List.Pairwise (· < ·)
      (([] : List (Node K)).map Node.key)) &&
      childrenSortedListB ([] : List (Node K))) = true
    simp [childrenSortedListB]
  | .internal H (c :: cs) mk0, hwf =>
    exact wfB_childrenSortedB _ _ le_rfl hwf

theorem treeWfB_subtreeHash {t : MerkleSearchTree K}
    (hwf : treeWfB t = true) : Node.subtreeHashOkB t.root = true := by
  obtain ⟨root, mc⟩ := t
  match root, hwf with
  | .internal H [] mk0, hwf =>
    have hHz : H = zeroHash := eq_of_beq hwf
    show ((H == xorFoldHashes ((entriesList
      ([] : List (Node K))).map Prod.snd)) && true) = true
    rw [hHz]
    rfl
  | .internal H (c :: cs) mk0, hwf =>
    exact wfB_subtreeHashOkB _ _ le_rfl hwf

theorem treeWfB_sorted_entries {t : MerkleSearchTree K}
    (hwf : treeWfB t = true) :
    List.Pairwise (· < ·) (t.root.entries.map Prod.fst) := by
  obtain ⟨root, mc⟩ := t
  match root, hwf with
  | .internal H [] mk0, _ => simp [Node.entries, entriesList]
  | .internal H (c :: cs) mk0, hwf => exact wfB_entries_sorted hwf

theorem treeWfB_hash_entries {t : MerkleSearchTree K}
    (hwf : treeWfB t = true) :
    t.hash = xorFoldHashes (t.root.entries.map Prod.snd) := by
  obtain ⟨root, mc⟩ := t
  match root, hwf with
  | .internal H [] mk0, hwf =>
    have hHz : H = zeroHash := eq_of_beq hwf
    show H = xorFoldHashes ((entriesList ([] : List (Node K))).map Prod.snd)
    rw [hHz]
    rfl
  | .internal H (c :: cs) mk0, hwf => exact wfB_subtree_hash hwf

theorem treeWfB_entries_L32 {t : MerkleSearchTree K}
    (hwf : treeWfB t = true) : L32 (t.root.entries.map Prod.snd) := by
  obtain ⟨root, mc⟩ := t
  match root, hwf with
  | .internal H [] mk0, _ =>
    show L32 ((entriesList ([] : List (Node K))).map Prod.snd)
    exact L32_nil
  | .internal H (c :: cs) mk0, hwf => exact wfB_entries_L32 hwf

theorem reachable_facts {m : Nat} (hm : 2 ≤ m) (hv : String → List Nat)
    (hlen : ∀ v, (hv v).length = 32) (ops : List (K × String))
    {t : MerkleSearchTree K}
    (h : insertSeq hv (MerkleSearchTree.new m) ops = some t) :
    treeWfB t = true ∧ t.max_children = m ∧
    t.root.entries = finalEntries hv ops := by
  obtain ⟨t2, heq, hmc2, hwf2, hE2⟩ := insertSeq_spec m hm hv hlen ops
    (MerkleSearchTree.new m) rfl (treeWfB_new m)
  rw [h] at heq
  obtain rfl := Option.some.inj heq
  exact ⟨hwf2, hmc2, hE2⟩

/-- The fixed collaborator hash function used in concrete witnesses: a
32-byte output determined by the length of the value. -/
def testHash (v : String) : List Nat :=
  List.replicate 31 0 ++ [v.length % 256]

theorem testHash_length (v : String) : (testHash v).length = 32 := by
  simp [testHash]

theorem treeWfB_root_internal {t : MerkleSearchTree K}
    (hwf : treeWfB t = true) : t.root.isInternal = true := by
  obtain ⟨root, mc⟩ := t
  match root, hwf with
  | .internal _ _ _, _ => rfl

/-! ## The claims -/

/-- C1: for every sequence of `Tree::insert` calls on a tree built with
`max_fanout ≥ 2`, `Tree::hash()` equals the XOR-fold of `hash_value(v_i)` over
all distinct keys with the last inserted value winning per key
(`finalEntries` is that canonical key-to-value-hash mapping, a function of the
final mapping alone, so the hash is independent of `max_fanout` and of the
insertion order); equivalently, the cached hash of every node in the tree
equals the XOR of the leaf hashes in its subtree (`Node.subtreeHashOkB`). -/
theorem C1_hash_determinism (m : Nat) (hm : 2 ≤ m) (hv : String → List Nat)
    (hlen : ∀ v, (hv v).length = 32) (ops : List (K × String))
    (t : MerkleSearchTree K)
    (h : insertSeq hv (MerkleSearchTree.new m) ops = some t) :
    t.hash = xorFoldHashes ((finalEntries hv ops).map Prod.snd) ∧
    Node.subtreeHashOkB t.root = true := by
  obtain ⟨hwf, hmc, hE⟩ := reachable_facts hm hv hlen ops h
  refine ⟨?_, treeWfB_subtreeHash hwf⟩
  rw [treeWfB_hash_entries hwf, hE]

theorem C1_hash_determinism_witness :
    2 ≤ 2 ∧ (∀ v, (testHash v).length = 32) ∧
    ((⟨Node.internal (xor_assign zeroHash (testHash "a"))
        [Node.leaf 10 (testHash "a")] 10, 2⟩ : MerkleSearchTree Nat).hash =
          xorFoldHashes ((finalEntries testHash
            [((10 : Nat), "a")]).map Prod.snd) ∧
      Node.subtreeHashOkB
        (⟨Node.internal (xor_assign zeroHash (testHash "a"))
          [Node.leaf 10 (testHash "a")] 10, 2⟩ :
            MerkleSearchTree Nat).root = true) :=
  ⟨by decide, testHash_length,
    C1_hash_determinism 2 (by decide) testHash testHash_length [(10, "a")]
      ⟨Node.internal (xor_assign zeroHash (testHash "a"))
        [Node.leaf 10 (testHash "a")] 10, 2⟩ rfl⟩

/-- C2: after every completed `Tree::insert` on a tree with `max_fanout ≥ 2`,
every Internal node of the tree has at most `max_fanout` children
(`Node.fanoutOkB` traverses the whole tree). -/
theorem C2_fanout_bound (m : Nat) (hm : 2 ≤ m) (hv : String → List Nat)
    (hlen : ∀ v, (hv v).length = 32) (ops : List (K × String))
    (t : MerkleSearchTree K)
    (h : insertSeq hv (MerkleSearchTree.new m) ops = some t) :
    Node.fanoutOkB m t.root = true := by
  obtain ⟨hwf, hmc, _⟩ := reachable_facts hm hv hlen ops h
  have := treeWfB_fanout hwf
  rwa [hmc] at this

theorem C2_fanout_bound_witness :
    2 ≤ 2 ∧ (∀ v, (testHash v).length = 32) ∧
    Node.fanoutOkB 2
      (⟨Node.internal (xor_assign zeroHash (testHash "a"))
        [Node.leaf 10 (testHash "a")] 10, 2⟩ :
          MerkleSearchTree Nat).root = true :=
  ⟨by decide, testHash_length,
    C2_fanout_bound 2 (by decide) testHash testHash_length [(10, "a")]
      ⟨Node.internal (xor_assign zeroHash (testHash "a"))
        [Node.leaf 10 (testHash "a")] 10, 2⟩ rfl⟩

/-- C7: after every completed `Tree::insert` on a tree with `max_fanout ≥ 2`,
within every Internal node the children are sorted strictly ascending by
representative key, and every key occurs in at most one Leaf across the whole
tree (the in-order list of leaf keys has no duplicate). -/
theorem C7_sorted_children_unique_keys (m : Nat) (hm : 2 ≤ m)
    (hv : String → List Nat) (hlen : ∀ v, (hv v).length = 32)
    (ops : List (K × String)) (t : MerkleSearchTree K)
    (h : insertSeq hv (MerkleSearchTree.new m) ops = some t) :
    Node.childrenSortedB t.root = true ∧ (Node.keys t.root).Nodup := by
  obtain ⟨hwf, _, _⟩ := reachable_facts hm hv hlen ops h
  refine ⟨treeWfB_childrenSorted hwf, ?_⟩
  have hs := treeWfB_sorted_entries hwf
  exact hs.imp ne_of_lt

theorem C7_sorted_children_unique_keys_witness :
    2 ≤ 2 ∧ (∀ v, (testHash v).length = 32) ∧
    (Node.childrenSortedB
      (⟨Node.internal (xor_assign zeroHash (testHash "a"))
        [Node.leaf 10 (testHash "a")] 10, 2⟩ :
          MerkleSearchTree Nat).root = true ∧
     (Node.keys (⟨Node.internal (xor_assign zeroHash (testHash "a"))
        [Node.leaf 10 (testHash "a")] 10, 2⟩ :
          MerkleSearchTree Nat).root).Nodup) :=
  ⟨by decide, testHash_length,
    C7_sorted_children_unique_keys 2 (by decide) testHash testHash_length
      [(10, "a")]
      ⟨Node.internal (xor_assign zeroHash (testHash "a"))
        [Node.leaf 10 (testHash "a")] 10, 2⟩ rfl⟩

/-- C9: for every sequence of public `Tree::new`/`Tree::insert` calls with
`max_fanout ≥ 2`, no execution reaches the fatal
"Cannot insert into a leaf node" branch of `Node::insert` (modelled by
`none`), and the root is always an Internal node: the whole sequence returns
`some` and the final root is Internal. -/
theorem C9_insert_never_panics (m : Nat) (hm : 2 ≤ m)
    (hv : String → List Nat) (hlen : ∀ v, (hv v).length = 32)
    (ops : List (K × String)) :
    (insertSeq hv (MerkleSearchTree.new m) ops).isSome = true ∧
    (insertSeq hv (MerkleSearchTree.new m) ops).map
      (fun t => t.root.isInternal) = some true := by
  obtain ⟨t2, heq, hmc2, hwf2, _⟩ := insertSeq_spec m hm hv hlen ops _ rfl
    (treeWfB_new m)
  rw [heq]
  exact ⟨rfl, by simp [treeWfB_root_internal hwf2]⟩

theorem C9_insert_never_panics_witness :
    2 ≤ 2 ∧ (∀ v, (testHash v).length = 32) ∧
    ((insertSeq testHash (MerkleSearchTree.new (K := Nat) 2)
      [(10, "v10"), (20, "v20"), (30, "v30"), (40, "v40")]).isSome = true ∧
     (insertSeq testHash (MerkleSearchTree.new (K := Nat) 2)
      [(10, "v10"), (20, "v20"), (30, "v30"), (40, "v40")]).map
        (fun t => t.root.isInternal) = some true) :=
  ⟨by decide, testHash_length,
    C9_insert_never_panics 2 (by decide) testHash testHash_length
      [(10, "v10"), (20, "v20"), (30, "v30"), (40, "v40")]⟩

/-- C5: on any reachable tree, inserting `(k, v1)` and then `(k, v2)` with
distinct value hashes changes the root hash, and the tree afterwards contains
exactly one Leaf for key `k` (the in-order leaf keys count `k` exactly once:
the leaf is replaced in place, never duplicated).  Distinct values are
represented by distinct value hashes, matching the preimage-resistant
collaborator contract for `hash_value`. -/
theorem C5_update_changes_hash (m : Nat) (hm : 2 ≤ m)
    (hv : String → List Nat) (hlen : ∀ v, (hv v).length = 32)
    (ops : List (K × String)) (t t1 t2 : MerkleSearchTree K)
    (h : insertSeq hv (MerkleSearchTree.new m) ops = some t)
    (k : K) (v1 v2 : String) (hne : hv v1 ≠ hv v2)
    (h1 : t.insert hv k v1 = some t1) (h2 : t1.insert hv k v2 = some t2) :
    t2.hash ≠ t1.hash ∧ (Node.keys t2.root).count k = 1 := by
  obtain ⟨hwf, hmc, hE⟩ := reachable_facts hm hv hlen ops h
  obtain ⟨t1', hins1, hwf1, hmc1, hE1⟩ :=
    tree_insert_spec t (by omega) hwf hv hlen k v1
  rw [h1] at hins1
  obtain rfl := Option.some.inj hins1
  obtain ⟨t2', hins2, hwf2, hmc2, hE2⟩ :=
    tree_insert_spec t1 (by omega) hwf1 hv hlen k v2
  rw [h2] at hins2
  obtain rfl := Option.some.inj hins2
  have hsortE : List.Pairwise (· < ·) (t.root.entries.map Prod.fst) :=
    treeWfB_sorted_entries hwf
  have hsort1 : List.Pairwise (· < ·) (t1.root.entries.map Prod.fst) :=
    treeWfB_sorted_entries hwf1
  constructor
  · obtain ⟨A, B, hA, hB, hup1, _⟩ :=
      upsertEntries_eq_parts k (hv v1) t.root.entries hsortE
    have hE1x : t1.root.entries = A ++ (k, hv v1) :: B := by
      rw [hE1, hup1]
    have hE2x : t2.root.entries = A ++ (k, hv v2) :: B := by
      rw [hE2, hE1x, upsertEntries_append_left k (hv v2) A _ hA]
      congr 1
      simp [upsertEntries, lt_irrefl]
    have hL1 : L32 (t1.root.entries.map Prod.snd) := treeWfB_entries_L32 hwf1
    have hLA : L32 (A.map Prod.snd) ∧ L32 (B.map Prod.snd) := by
      rw [hE1x, List.map_append, L32_append, List.map_cons, L32_cons] at hL1
      exact ⟨hL1.1, hL1.2.2⟩
    have hFab : (xorFoldHashes
        (A.map Prod.snd ++ B.map Prod.snd)).length = 32 :=
      xorFoldHashes_length _ (L32_append.mpr hLA)
    have hfold1 : t1.hash = xor_assign (hv v1)
        (xorFoldHashes (A.map Prod.snd ++ B.map Prod.snd)) := by
      rw [treeWfB_hash_entries hwf1, hE1x, List.map_append, List.map_cons]
      exact xorFoldHashes_extract _ _ _ hLA.1 (hlen v1) hLA.2
    have hfold2 : t2.hash = xor_assign (hv v2)
        (xorFoldHashes (A.map Prod.snd ++ B.map Prod.snd)) := by
      rw [treeWfB_hash_entries hwf2, hE2x, List.map_append, List.map_cons]
      exact xorFoldHashes_extract _ _ _ hLA.1 (hlen v2) hLA.2
    intro hcon
    rw [hfold1, hfold2] at hcon
    rw [xor_assign_comm (hv v2) _, xor_assign_comm (hv v1) _] at hcon
    exact hne (xor_assign_left_cancel hFab (hlen v2) (hlen v1) hcon).symm
  · show (t2.root.entries.map Prod.fst).count k = 1
    rw [hE2]
    exact upsertEntries_count k (hv v2) _ hsort1

theorem C5_update_changes_hash_witness :
    2 ≤ 2 ∧ (∀ v, (testHash v).length = 32) ∧
    testHash "a" ≠ testHash "bb" ∧
    ((⟨Node.internal (xor_assign (xor_assign (xor_assign zeroHash
          (testHash "a")) (testHash "a")) (testHash "bb"))
        [Node.leaf 10 (testHash "bb")] 10, 2⟩ :
          MerkleSearchTree Nat).hash ≠
      (⟨Node.internal (xor_assign zeroHash (testHash "a"))
        [Node.leaf 10 (testHash "a")] 10, 2⟩ :
          MerkleSearchTree Nat).hash ∧
     (Node.keys (⟨Node.internal (xor_assign (xor_assign (xor_assign zeroHash
          (testHash "a")) (testHash "a")) (testHash "bb"))
        [Node.leaf 10 (testHash "bb")] 10, 2⟩ :
          MerkleSearchTree Nat).root).count 10 = 1) :=
  ⟨by decide, testHash_length, by decide,
    C5_update_changes_hash 2 (by decide) testHash testHash_length []
      (MerkleSearchTree.new 2)
      ⟨Node.internal (xor_assign zeroHash (testHash "a"))
        [Node.leaf 10 (testHash "a")] 10, 2⟩
      ⟨Node.internal (xor_assign (xor_assign (xor_assign zeroHash
          (testHash "a")) (testHash "a")) (testHash "bb"))
        [Node.leaf 10 (testHash "bb")] 10, 2⟩
      rfl 10 "a" "bb" (by decide) rfl rfl⟩

/-- C6: for every reachable tree state and every `(key, value)` pair,
inserting the same pair twice leaves `Tree::hash()` unchanged after the
second insert (the second insert cancels the old leaf hash and applies an
identical one). -/
theorem C6_same_pair_idempotent (m : Nat) (hm : 2 ≤ m)
    (hv : String → List Nat) (hlen : ∀ v, (hv v).length = 32)
    (ops : List (K × String)) (t t1 t2 : MerkleSearchTree K)
    (h : insertSeq hv (MerkleSearchTree.new m) ops = some t)
    (k : K) (v : String)
    (h1 : t.insert hv k v = some t1) (h2 : t1.insert hv k v = some t2) :
    t2.hash = t1.hash := by
  obtain ⟨hwf, hmc, hE⟩ := reachable_facts hm hv hlen ops h
  obtain ⟨t1', hins1, hwf1, hmc1, hE1⟩ :=
    tree_insert_spec t (by omega) hwf hv hlen k v
  rw [h1] at hins1
  obtain rfl := Option.some.inj hins1
  obtain ⟨t2', hins2, hwf2, hmc2, hE2⟩ :=
    tree_insert_spec t1 (by omega) hwf1 hv hlen k v
  rw [h2] at hins2
  obtain rfl := Option.some.inj hins2
  rw [treeWfB_hash_entries hwf2, treeWfB_hash_entries hwf1, hE2, hE1,
    upsertEntries_idem]

theorem C6_same_pair_idempotent_witness :
    2 ≤ 2 ∧ (∀ v, (testHash v).length = 32) ∧
    (⟨Node.internal (xor_assign (xor_assign (xor_assign zeroHash
        (testHash "a")) (testHash "a")) (testHash "a"))
      [Node.leaf 10 (testHash "a")] 10, 2⟩ :
        MerkleSearchTree Nat).hash =
    (⟨Node.internal (xor_assign zeroHash (testHash "a"))
      [Node.leaf 10 (testHash "a")] 10, 2⟩ :
        MerkleSearchTree Nat).hash :=
  ⟨by decide, testHash_length,
    C6_same_pair_idempotent 2 (by decide) testHash testHash_length []
      (MerkleSearchTree.new 2)
      ⟨Node.internal (xor_assign zeroHash (testHash "a"))
        [Node.leaf 10 (testHash "a")] 10, 2⟩
      ⟨Node.internal (xor_assign (xor_assign (xor_assign zeroHash
          (testHash "a")) (testHash "a")) (testHash "a"))
        [Node.leaf 10 (testHash "a")] 10, 2⟩
      rfl 10 "a" (by rfl) (by rfl)⟩

/-- C3 as written is false on the code: `MerkleSearchTree::new` performs no
validation at all, so constructing a tree with `max_fanout = 1 ≤ 1` (or even
`0`) succeeds and returns an ordinary empty tree instead of failing. -/
theorem C3_counterexample :
    (MerkleSearchTree.new (K := Nat) 1).max_children = 1 ∧
    (MerkleSearchTree.new (K := Nat) 1).root =
      Node.internal zeroHash [] 0 ∧
    (MerkleSearchTree.new (K := Nat) 0).max_children = 0 ∧
    (MerkleSearchTree.new (K := Nat) 0).root =
      Node.internal zeroHash [] 0 :=
  ⟨rfl, rfl, rfl, rfl⟩

/-- C3 amended: `Tree::new` does not fail for `max_fanout ≤ 1`; it performs no
validation of `max_fanout` and, for every bound including degenerate ones,
returns a tree carrying that bound with the default empty Internal root.  The
`max_fanout > 1` requirement must be guarded by the caller. -/
theorem C3_new_unvalidated (m : Nat) :
    (MerkleSearchTree.new (K := Nat) m).max_children = m ∧
    (MerkleSearchTree.new (K := Nat) m).root =
      Node.internal zeroHash [] 0 :=
  ⟨rfl, rfl⟩

/-- The in-order leaf keys of each child of the root. -/
def rootChildrenKeys (t : MerkleSearchTree K) : List (List K) :=
  match t.root with
  | .internal _ cs _ => cs.map Node.keys
  | .leaf _ _ => []

/-- C4: on a tree with `max_fanout = 2`, inserting keys 10, 20, 30 in that
order leaves the root as an Internal node with exactly 2 children, the first
subtree holding exactly key 10 and the second exactly keys 20 and 30; the
subsequent insert of key 40 — larger than every existing key, exercising the
clamped descent index — does not panic (returns `some`) and leaves a
well-formed tree. -/
theorem C4_root_split_and_largest_key :
    (insertSeq testHash (MerkleSearchTree.new (K := Nat) 2)
      [(10, "v10"), (20, "v20"), (30, "v30")]).map rootChildrenKeys =
      some [[10], [20, 30]] ∧
    (insertSeq testHash (MerkleSearchTree.new (K := Nat) 2)
      [(10, "v10"), (20, "v20"), (30, "v30")]).map
        (fun t => t.root.isInternal) = some true ∧
    (insertSeq testHash (MerkleSearchTree.new (K := Nat) 2)
      [(10, "v10"), (20, "v20"), (30, "v30"), (40, "v40")]).map treeWfB =
      some true := by
  refine ⟨?_, ?_, ?_⟩ <;> decide

/-- C8: when the split is triggered (`children.len() > max_fanout` after the
insertion step), the node splits at the midpoint index `children.len() / 2`:
the tail half moves into the new sibling, the head half stays in place, and
each of the two halves ends with its hash equal to the XOR-fold over its own
(retained or moved) children's hashes — the value a from-scratch recompute
produces — and its representative key equal to its last child's key.
Hypothesis `hhash` is the insert-time invariant that the incoming cached hash
is the XOR-fold over all the children's hashes. -/
theorem C8_split_midpoint (m : Nat) (hm : 2 ≤ m) (H : List Nat)
    (cs : List (Node K)) (mk : K)
    (hover : cs.length > m)
    (hhash : H = hashFoldChildren cs)
    (hL : L32 (cs.map Node.hash))
    (hkne : cs.take (cs.length / 2) ≠ [])
    (hdne : cs.drop (cs.length / 2) ≠ []) :
    splitCheck H cs mk m =
      (Node.internal (hashFoldChildren (cs.take (cs.length / 2)))
        (cs.take (cs.length / 2))
        (((cs.take (cs.length / 2)).getLast hkne).key),
       some (Node.internal (hashFoldChildren (cs.drop (cs.length / 2)))
        (cs.drop (cs.length / 2))
        (((cs.drop (cs.length / 2)).getLast hdne).key))) := by
  have hcs : cs = cs.take (cs.length / 2) ++ cs.drop (cs.length / 2) :=
    (List.take_append_drop _ cs).symm
  have hLsplit : L32 ((cs.take (cs.length / 2)).map Node.hash) ∧
      L32 ((cs.drop (cs.length / 2)).map Node.hash) := by
    rw [hcs, List.map_append, L32_append] at hL
    exact hL
  have hFK : (xorFoldHashes
      ((cs.take (cs.length / 2)).map Node.hash)).length = 32 :=
    xorFoldHashes_length _ hLsplit.1
  have hFS : (xorFoldHashes
      ((cs.drop (cs.length / 2)).map Node.hash)).length = 32 :=
    xorFoldHashes_length _ hLsplit.2
  have hH : H = xor_assign
      (xorFoldHashes ((cs.take (cs.length / 2)).map Node.hash))
      (xorFoldHashes ((cs.drop (cs.length / 2)).map Node.hash)) := by
    rw [hhash, hashFoldChildren_eq]
    conv_lhs => rw [hcs]
    rw [List.map_append, xorFoldHashes_append _ _ hLsplit.1 hLsplit.2]
  have hkepthash : xor_assign H
      (hashFoldChildren (cs.drop (cs.length / 2))) =
      hashFoldChildren (cs.take (cs.length / 2)) := by
    rw [hashFoldChildren_eq, hashFoldChildren_eq, hH, xor_assign_assoc,
        xor_assign_self32 hFS, xor_zeroHash _ hFK]
  have hglast2 : (cs.drop (cs.length / 2)).getLast? =
      some ((cs.drop (cs.length / 2)).getLast hdne) :=
    List.getLast?_eq_getLast _ hdne
  have hglast1 : (cs.take (cs.length / 2)).getLast? =
      some ((cs.take (cs.length / 2)).getLast hkne) :=
    List.getLast?_eq_getLast _ hkne
  have hrecalc : (Node.internal zeroHash (cs.drop (cs.length / 2))
      default).recalculate = Node.internal
        (hashFoldChildren (cs.drop (cs.length / 2)))
        (cs.drop (cs.length / 2))
        (((cs.drop (cs.length / 2)).getLast hdne).key) := by
    show (match (cs.drop (cs.length / 2)).getLast? with
      | none => Node.internal zeroHash (cs.drop (cs.length / 2)) default
      | some last => Node.internal
          (hashFoldChildren (cs.drop (cs.length / 2)))
          (cs.drop (cs.length / 2)) last.key) = _
    rw [hglast2]
  simp only [splitCheck]
  rw [if_pos hover, hrecalc, hglast1]
  show (Node.internal (xor_assign H
      (hashFoldChildren (cs.drop (cs.length / 2))))
    (cs.take (cs.length / 2))
    (((cs.take (cs.length / 2)).getLast hkne).key), _) = _
  rw [hkepthash]

theorem C8_split_midpoint_witness :
    2 ≤ 2 ∧
    ([Node.leaf 1 zeroHash, Node.leaf 2 zeroHash,
      Node.leaf (3 : Nat) zeroHash] : List (Node Nat)).length > 2 ∧
    L32 (([Node.leaf 1 zeroHash, Node.leaf 2 zeroHash,
      Node.leaf (3 : Nat) zeroHash] : List (Node Nat)).map Node.hash) ∧
    splitCheck
      (hashFoldChildren [Node.leaf 1 zeroHash, Node.leaf 2 zeroHash,
        Node.leaf (3 : Nat) zeroHash])
      [Node.leaf 1 zeroHash, Node.leaf 2 zeroHash, Node.leaf 3 zeroHash]
      0 2 =
      (Node.internal (hashFoldChildren [Node.leaf (1 : Nat) zeroHash])
        [Node.leaf 1 zeroHash] 1,
       some (Node.internal (hashFoldChildren
          [Node.leaf (2 : Nat) zeroHash, Node.leaf 3 zeroHash])
        [Node.leaf 2 zeroHash, Node.leaf 3 zeroHash] 3)) :=
  ⟨by decide, by decide, by unfold L32; decide,
    C8_split_midpoint 2 (by decide)
      (hashFoldChildren [Node.leaf 1 zeroHash, Node.leaf 2 zeroHash,
        Node.leaf 3 zeroHash])
      [Node.leaf 1 zeroHash, Node.leaf 2 zeroHash, Node.leaf 3 zeroHash]
      0 (by decide) rfl (by unfold L32; decide)
      (List.ne_nil_of_length_pos (by decide))
      (List.ne_nil_of_length_pos (by decide))⟩

/-- C10: the `NodeHash::xor` method of `hash.rs` and the free function
`xor_assign` of `tree.rs` (the one the tree uses) compute the same function —
byte-wise XOR of the target with the source — and on 32-byte inputs this
operation is commutative, self-inverse (`x xor x` is the all-zero hash), and
has the all-zero hash as identity on both sides. -/
theorem C10_xor_implementations_agree (t s : List Nat) (ht : t.length = 32)
    (hs : s.length = 32) :
    NodeHash.xor t s = xor_assign t s ∧
    xor_assign t s = xor_assign s t ∧
    xor_assign t t = zeroHash ∧
    xor_assign zeroHash t = t ∧
    xor_assign t zeroHash = t :=
  ⟨rfl, xor_assign_comm t s, xor_assign_self32 ht, zeroHash_xor t ht,
    xor_zeroHash t ht⟩

theorem C10_xor_implementations_agree_witness :
    (List.replicate 32 7 : List Nat).length = 32 ∧
    (List.replicate 32 9 : List Nat).length = 32 ∧
    (NodeHash.xor (List.replicate 32 7) (List.replicate 32 9) =
        xor_assign (List.replicate 32 7) (List.replicate 32 9) ∧
      xor_assign (List.replicate 32 7) (List.replicate 32 9) =
        xor_assign (List.replicate 32 9) (List.replicate 32 7) ∧
      xor_assign (List.replicate 32 7) (List.replicate 32 7) = zeroHash ∧
      xor_assign zeroHash (List.replicate 32 7) = List.replicate 32 7 ∧
      xor_assign (List.replicate 32 7) zeroHash = List.replicate 32 7) :=
  ⟨by decide, by decide,
    C10_xor_implementations_agree (List.replicate 32 7)
      (List.replicate 32 9) (by decide) (by decide)⟩

end Mst
